import Mathlib

/-!
# Verification of the record classification and spatial aggregation pipeline

A shallow embedding of `markup_tool.py`.  Strings are modelled as lists of
characters (`Str`), pandas cells as `Option` values (missing = `none`), and
latitude/longitude as exact integers (the float arithmetic of the source is
modelled by exact arithmetic).  The pandas regular-expression operations used
by the source (`contains`, `match`, `replace` with the concrete patterns
`copy`, `^\d+$`, `\bPLA\b`, `\s*\bPLA\b`, `\bAT&T\b|\bCharter\b`) are embedded
as character-level scanners implementing exactly those patterns.
-/

set_option linter.unusedVariables false
set_option linter.unnecessarySeqFocus false

abbrev Str := List Char

/-- `str.lower()` (ASCII, as in the data handled by the tool). -/
def toLowerStr (s : Str) : Str := s.map Char.toLower

/-- `str.strip()`: remove leading and trailing whitespace. -/
def trimStr (s : Str) : Str :=
  ((s.dropWhile Char.isWhitespace).reverse.dropWhile Char.isWhitespace).reverse

/-- A regex word character (`\w`): letters, digits, underscore. -/
def isWordChar (c : Char) : Bool := c.isAlphanum || c = '_'

/-- Case-insensitive character comparison (`re.IGNORECASE` / `case=False`). -/
def charEqCI (a b : Char) : Bool := a.toLower = b.toLower

/-- Does `s` start with the pattern `pat`, case-insensitively? -/
def matchCIAt : Str → Str → Bool
  | [], _ => true
  | _ :: _, [] => false
  | p :: ps, c :: cs => charEqCI p c && matchCIAt ps cs

/-- `Series.str.contains(pat, case=False)` for a plain-text pattern:
case-insensitive substring search. -/
def containsCI (pat : Str) : Str → Bool
  | [] => matchCIAt pat []
  | c :: cs => matchCIAt pat (c :: cs) || containsCI pat cs

/-- Word-boundary check after a match: the next character (if any) must not be
a word character. -/
def boundaryAfterOK (s : Str) : Bool :=
  match s with
  | [] => true
  | c :: _ => !isWordChar c

/-- Scanner for `\bPAT\b` (case-insensitive) where the first and last pattern
characters are word characters; `prev` is the character just before the
current position in the original string. -/
def foundWordCI (pat : Str) (prev : Option Char) : Str → Bool
  | [] => false
  | c :: cs =>
      (matchCIAt pat (c :: cs) && !(prev.any isWordChar)
        && boundaryAfterOK ((c :: cs).drop pat.length))
      || foundWordCI pat (some c) cs

/-- `re.search(r'\bPAT\b', s, re.IGNORECASE) is not None`. -/
def containsWordCI (pat : Str) (s : Str) : Bool := foundWordCI pat none s

/-- `job_name` contains a standalone `PLA` token (`\bPLA\b`, case-insensitive). -/
def containsPLA (s : Str) : Bool := containsWordCI ['P', 'L', 'A'] s

/-- Try to match `\s*\bPLA\b` at the current position; `prev` is the previous
original character.  Returns the length of the whitespace run when the match
succeeds (total consumed length is that plus 3). -/
def plaSubMatch (prev : Option Char) (s : Str) : Option Nat :=
  let w := (s.takeWhile Char.isWhitespace).length
  let rest := s.drop w
  if matchCIAt ['P', 'L', 'A'] rest
      && (decide (0 < w) || !(prev.any isWordChar))
      && boundaryAfterOK (rest.drop 3)
  then some w else none

/-- `re.sub(r'\s*\bPLA\b', '', s, flags=re.IGNORECASE)`: left-to-right scan
replacing every match by the empty string.  After a match the scan resumes
after the match; the character before the resume point is the matched `A`.
The scan consumes at least one character per step, so a fuel equal to the
string length (as supplied by `base_job`) always suffices and the fuel-out
branch is never taken. -/
def subPLA : Nat → Option Char → Str → Str
  | 0, _, _ => []
  | _ + 1, _, [] => []
  | fuel + 1, prev, c :: cs =>
      match plaSubMatch prev (c :: cs) with
      | some w => subPLA fuel (some 'A') ((c :: cs).drop (w + 3))
      | none => c :: subPLA fuel (some c) cs

/-- `df['job_name'].str.replace(r'\s*\bPLA\b', '', case=False, regex=True)`. -/
def base_job (s : Str) : Str := subPLA s.length none s

/-- `str.match(r'^\d+$')`: the SCID is a non-empty all-digit string. -/
def scidOk (s : Str) : Bool := !s.isEmpty && s.all Char.isDigit

/-- The view mode selector of the tool. -/
inductive ViewMode where
  | MR
  | Utility
deriving DecidableEq

/-- One input row after spreadsheet parsing.  Optional cells are `none` when
the pandas value is NaN; the `mrLevels`/`mrCosts`/`warnings`/`companies`
lists hold the cells of the detected column groups in column order. -/
structure Row where
  job_name : Str
  node_type : Str
  scid : Str
  latitude : Option Int
  longitude : Option Int
  mrLevels : List (Option Str)
  mrCosts : List (Option Str)
  warnings : List (Option Str)
  companies : List (Option Str)
deriving DecidableEq

/-- `df[~df['job_name'].str.contains(r'copy', case=False, na=False)]`. -/
def dropCopy (rows : List Row) : List Row :=
  rows.filter (fun r => !containsCI "copy".toList r.job_name)

/-- `df[df['node_type'].astype(str).str.lower()=='pole']`. -/
def keepPoles (rows : List Row) : List Row :=
  rows.filter (fun r => decide (toLowerStr r.node_type = "pole".toList))

/-- `df.dropna(subset=['latitude','longitude'])`. -/
def dropNoCoord (rows : List Row) : List Row :=
  rows.filter (fun r => r.latitude.isSome && r.longitude.isSome)

/-- `df[df['scid'].astype(str).str.match(r'^\d+$', na=False)]`. -/
def keepScid (rows : List Row) : List Row :=
  rows.filter (fun r => scidOk r.scid)

/-- `has_pla`: the base job names of rows whose job name contains `\bPLA\b`. -/
def plaBases (rows : List Row) : List Str :=
  (rows.filter (fun r => containsPLA r.job_name)).map (fun r => base_job r.job_name)

/-- The Utility-mode PLA deduplication stage:
`df[(mask_pla & mask_is_pla) | (~mask_pla)]`. -/
def plaStage (rows : List Row) : List Row :=
  rows.filter (fun r =>
    (decide (base_job r.job_name ∈ plaBases rows) && containsPLA r.job_name)
    || !decide (base_job r.job_name ∈ plaBases rows))

/-- Does a company cell match `\bAT&T\b|\bCharter\b` (case-insensitive)?
Missing cells are filled with the empty string (`fillna('')`). -/
def companyExcluded (cell : Option Str) : Bool :=
  let s := cell.getD []
  containsWordCI "AT&T".toList s || containsWordCI "Charter".toList s

/-- The Utility-mode AT&T/Charter exclusion stage. -/
def utilityCompanyStage (rows : List Row) : List Row :=
  rows.filter (fun r => !(r.companies.any companyExcluded))

/-- The complete record filter of `build_map` (lines 53-74), in source order. -/
def filterRows (mode : ViewMode) (rows : List Row) : List Row :=
  let r4 := keepScid (dropNoCoord (keepPoles (dropCopy rows)))
  match mode with
  | .Utility => utilityCompanyStage (plaStage r4)
  | .MR => r4.filter (fun r => !containsPLA r.job_name)

/-- `canon`: strip, and collapse the two spelling variants of the Magic Valley
cooperative to one canonical form. -/
def canon (v : Str) : Str :=
  let w := trimStr v
  if toLowerStr w = "magic valley elec coop".toList
      ∨ toLowerStr w = "magic valley electric coop".toList
  then "Magic Valley Electric Coop".toList else w

/-- A cell kept by `pd.notna(row.get(c)) and str(row.get(c)).strip()`:
present and not blank; the kept value is the raw (untrimmed) string. -/
def cellKeptRaw (c : Option Str) : Option Str :=
  match c with
  | some s => if trimStr s ≠ [] then some s else none
  | none => none

/-- `raw_comps` of the marker loop (line 120). -/
def raw_comps (r : Row) : List Str := r.companies.filterMap cellKeptRaw

/-- The canonicalized per-row company list used in Utility mode (line 125). -/
def utilCompanies (r : Row) : List Str := (raw_comps r).map canon

/-- One company value collected by the color-table scan (lines 91-95):
`str()` of a NaN cell is `'nan'`, so missing cells and cells whose stripped
value is a case variant of `'nan'` are skipped; blank cells are skipped. -/
def comps_of_row (r : Row) : List Str :=
  r.companies.filterMap (fun c =>
    match c with
    | some s =>
        let v := trimStr s
        if v ≠ [] ∧ toLowerStr v ≠ "nan".toList then some (canon v) else none
    | none => none)

/-- `comps`: all canonical company values of all rows, row order then column
order. -/
def comps (rows : List Row) : List Str := (rows.map comps_of_row).flatten

/-- The fixed colors of the four known companies. -/
def knownCompColors : List (Str × Str) :=
  [("Magic Valley Electric Coop".toList, "#98ff98".toList),
   ("AEP".toList, "orange".toList),
   ("Brownsville Public Utilities".toList, "aqua".toList),
   ("Central Bradford PA".toList, "yellow".toList)]

/-- The palette cycled through for unknown companies. -/
def PALETTE : List Str :=
  ["blue".toList, "darkblue".toList, "teal".toList,
   "navy".toList, "magenta".toList, "lime".toList]

def MULTI_COMP_COLOR : Str := "red".toList

/-- First-match lookup in an association list (Python `dict` lookup: keys are
unique by construction). -/
def lookupStr (m : List (Str × Str)) (k : Str) : Option Str :=
  (m.find? (fun p => decide (p.1 = k))).map Prod.snd

def keysOf (m : List (Str × Str)) : List Str := m.map Prod.fst

/-- The `for comp in uniq` loop (lines 103-107): unknown companies are
appended with the next palette color, cyclically. -/
def addComps : List Str → List (Str × Str) × Nat → List (Str × Str) × Nat
  | [], st => st
  | comp :: rest, (m, idx) =>
      if comp ∈ keysOf m then addComps rest (m, idx)
      else addComps rest (m ++ [(comp, PALETTE.getD (idx % PALETTE.length) [])], idx + 1)

/-- `uniq = sorted(set(comps))`. -/
def uniqComps (rows : List Row) : List Str :=
  List.insertionSort (· ≤ ·) (comps rows).dedup

/-- The company color table of a Utility run (lines 84-107). -/
def comp_color (rows : List Row) : List (Str × Str) :=
  (addComps (uniqComps rows) (knownCompColors, 0)).1

/-- Marker categories (spec section 3, `MarkerFeature.category`). -/
inductive Category where
  | StyledLevel (level : Str)
  | MissingLevel
  | Warning
  | SingleCompany (name : Str)
  | MultiCompany
  | NoCompany
deriving DecidableEq

/-- A classified marker: position, category and color. -/
structure Marker where
  lat : Int
  lon : Int
  category : Category
  color : Str
deriving DecidableEq

def STYLE_COLORS : List (Str × Str) :=
  [("No MR".toList, "green".toList),
   ("Comm MR".toList, "yellow".toList),
   ("Simple Power MR".toList, "orange".toList),
   ("Complex Power MR".toList, "red".toList),
   ("Deferred".toList, "gray".toList),
   ("Cannot Attach".toList, "black".toList)]

def MISSING_COLOR : Str := "purple".toList
def WARNING_COLOR : Str := "aqua".toList

/-- `first_val`: the first present, non-blank cell, returned untrimmed
(lines 109-114). -/
def first_val (cells : List (Option Str)) : Str :=
  match cells with
  | [] => []
  | c :: rest =>
      match c with
      | some s => if trimStr s ≠ [] then s else first_val rest
      | none => first_val rest

/-- The non-blank warning cells of a row (line 119). -/
def rowWarnings (r : Row) : List Str := r.warnings.filterMap cellKeptRaw

/-- The MR-mode marker of one row (lines 127-148). -/
def classifyMR (r : Row) : Marker :=
  let lvl := first_val r.mrLevels
  if rowWarnings r ≠ [] then
    { lat := r.latitude.getD 0, lon := r.longitude.getD 0,
      category := .Warning, color := WARNING_COLOR }
  else
    match lookupStr STYLE_COLORS lvl with
    | some col =>
        { lat := r.latitude.getD 0, lon := r.longitude.getD 0,
          category := .StyledLevel lvl, color := col }
    | none =>
        { lat := r.latitude.getD 0, lon := r.longitude.getD 0,
          category := .MissingLevel, color := MISSING_COLOR }

/-- The Utility-mode marker of one row (lines 150-175): branch on the length
of the per-row company list. -/
def classifyUtility (table : List (Str × Str)) (r : Row) : Marker :=
  let companies := utilCompanies r
  if 1 < companies.length then
    { lat := r.latitude.getD 0, lon := r.longitude.getD 0,
      category := .MultiCompany, color := MULTI_COMP_COLOR }
  else
    match companies with
    | [c] =>
        { lat := r.latitude.getD 0, lon := r.longitude.getD 0,
          category := .SingleCompany c,
          color := (lookupStr table c).getD (PALETTE.getD 0 []) }
    | _ =>
        { lat := r.latitude.getD 0, lon := r.longitude.getD 0,
          category := .NoCompany, color := "red".toList }

/-- The marker list of a run over already-filtered rows. -/
def markersOf (mode : ViewMode) (table : List (Str × Str)) (rows : List Row) :
    List Marker :=
  match mode with
  | .MR => rows.map classifyMR
  | .Utility => rows.map (classifyUtility table)

/-- A point, as the exact-arithmetic model of a `(float, float)` pair.
Python tuple comparison is lexicographic. -/
abbrev Pt := Int × Int

/-- Lexicographic order on points (Python tuple `<=`). -/
def ptLE (a b : Pt) : Prop := a.1 < b.1 ∨ (a.1 = b.1 ∧ a.2 ≤ b.2)

/-- Strict lexicographic order on points (Python tuple `<`). -/
def ptLT (a b : Pt) : Prop := a.1 < b.1 ∨ (a.1 = b.1 ∧ a.2 < b.2)

instance : DecidableRel ptLE := fun a b => by unfold ptLE; infer_instance

instance : DecidableRel ptLT := fun a b => by unfold ptLT; infer_instance

theorem ptLE_total (a b : Pt) : ptLE a b ∨ ptLE b a := by unfold ptLE; omega

theorem ptLE_trans {a b c : Pt} : ptLE a b → ptLE b c → ptLE a c := by
  unfold ptLE; omega

theorem ptLE_antisymm {a b : Pt} : ptLE a b → ptLE b a → a = b := by
  intro h1 h2
  have h : a.1 = b.1 ∧ a.2 = b.2 := by unfold ptLE at h1 h2; omega
  exact Prod.ext h.1 h.2

instance : IsTotal Pt ptLE := ⟨ptLE_total⟩

instance : IsTrans Pt ptLE := ⟨fun _ _ _ => ptLE_trans⟩

instance : IsAntisymm Pt ptLE := ⟨fun _ _ => ptLE_antisymm⟩

/-- `sorted(set(points))`. -/
def sortedDedup (points : List Pt) : List Pt :=
  List.insertionSort ptLE points.dedup

/-- The cross product of `convex_hull` (lines 37-38). -/
def cross (o a b : Pt) : Int :=
  (a.1 - o.1) * (b.2 - o.2) - (a.2 - o.2) * (b.1 - o.1)

/-- The `while ... pop()` loop of the monotone chain, on the reversed chain
(head = most recently pushed point). -/
def popWhile (p : Pt) : List Pt → List Pt
  | b :: a :: rest =>
      if cross a b p ≤ 0 then popWhile p (a :: rest) else b :: a :: rest
  | l => l

/-- Processing one point: pop non-left turns, then push. -/
def chainStep (acc : List Pt) (p : Pt) : List Pt := p :: popWhile p acc

/-- The chain built by one `for p in pts` loop, in reversed order. -/
def chainFold (pts : List Pt) : List Pt := pts.foldl chainStep []

/-- `convex_hull` (lines 33-48): Andrew's monotone chain over the sorted,
deduplicated points; `lower[:-1] + upper[:-1]`. -/
def convex_hull (points : List Pt) : List Pt :=
  let pts := sortedDedup points
  if pts.length < 3 then pts
  else
    let lower := (chainFold pts).reverse
    let upper := (chainFold pts.reverse).reverse
    lower.dropLast ++ upper.dropLast

/-- A job hull feature (lines 184-197): ring plus fixed style properties. -/
structure JobHullFeature where
  jobName : Str
  ring : List Pt
  color : Str := "black".toList
  labelSize : Nat := 10
  isJobLabel : Bool := true
  opacity : Rat := 95 / 100
deriving DecidableEq

/-- The `(longitude, latitude)` projection of a row (line 179); coordinates
are present for every row that survived `dropna`. -/
def rowPt (r : Row) : Pt := (r.longitude.getD 0, r.latitude.getD 0)

/-- The group keys of `df.groupby('job_name')` (sorted, deduplicated). -/
def jobNamesSorted (rows : List Row) : List Str :=
  List.insertionSort (· ≤ ·) (rows.map Row.job_name).dedup

/-- The job aggregator (lines 177-197): per group, if it has at least three
rows, compute the hull, close the ring and emit a feature. -/
def hullFeatures (rows : List Row) : List JobHullFeature :=
  (jobNamesSorted rows).filterMap (fun j =>
    let pts := (rows.filter (fun r => decide (r.job_name = j))).map rowPt
    if pts.length < 3 then none
    else
      let hull := convex_hull pts
      some { jobName := j, ring := hull ++ hull.take 1 })

/-- An overlay feature with its optional style properties. -/
structure OverlayFeature where
  color : Option Str
  opacity : Option Rat
deriving DecidableEq

/-- The style applied when rendering an overlay feature (lines 252-257). -/
def overlayColorUsed (f : OverlayFeature) : Str := f.color.getD "blue".toList

def overlayOpacityUsed (f : OverlayFeature) : Rat := f.opacity.getD (95 / 100)

/-- The renderable scene: classified markers, job hulls and merged overlays. -/
structure Scene where
  markers : List Marker
  hulls : List JobHullFeature
  overlays : List OverlayFeature
deriving DecidableEq

/-- A pipeline run result: the scene plus the warnings reported to the user. -/
structure RunOutput where
  scene : Scene
  warnings : List Str
deriving DecidableEq

/-- The overlay-loading `try/except` (lines 245-271): no path means no
overlays; a successful parse merges the features; any failure is reported as
a warning and contributes no features. -/
def loadOverlays :
    Option (Except Str (List OverlayFeature)) → List OverlayFeature × List Str
  | none => ([], [])
  | some (.ok fs) => (fs, [])
  | some (.error e) => ([], ["Could not load markup file:\n".toList ++ e])

/-- The data pipeline of `build_map`: filter, build the color table, classify,
aggregate hulls, merge overlays.  (In MR mode the color table is unused.) -/
def build_map (mode : ViewMode) (rows : List Row)
    (markup : Option (Except Str (List OverlayFeature))) : RunOutput :=
  let dfRows := filterRows mode rows
  let table := comp_color dfRows
  let loaded := loadOverlays markup
  { scene := { markers := markersOf mode table dfRows,
               hulls := hullFeatures dfRows,
               overlays := loaded.1 },
    warnings := loaded.2 }

/-- The required base columns (line 441). -/
def requiredBase : List Str :=
  ["job_name".toList, "latitude".toList, "longitude".toList,
   "node_type".toList, "scid".toList]

/-- A configuration error, carrying the column names listed in its message. -/
inductive GenError where
  | missingColumns (listed : List Str)
  | missingMRGroups (listed : List Str)
  | missingCompanyCols
deriving DecidableEq

/-- `[c for c in df.columns if c.lower().startswith('mr_level')]`. -/
def level_cols (cols : List Str) : List Str :=
  cols.filter (fun c => matchCIAt "mr_level".toList c)

/-- `[c for c in df.columns if 'mr_cost' in c.lower()]`. -/
def cost_cols (cols : List Str) : List Str :=
  cols.filter (containsCI "mr_cost".toList)

/-- `[c for c in df.columns if 'warning' in c.lower()]`. -/
def warning_cols (cols : List Str) : List Str :=
  cols.filter (containsCI "warning".toList)

/-- `[c for c in df.columns if 'company' in c.lower()]`. -/
def company_cols (cols : List Str) : List Str :=
  cols.filter (containsCI "company".toList)

/-- The column checks of `on_generate` (lines 441-453), with the column
names each error message lists.  The base-columns message is
`"Need: " + ", ".join(base)`: it lists the whole required set. -/
def on_generate_check (cols : List Str) : Option GenError :=
  if ¬ (∀ c ∈ requiredBase, c ∈ cols) then some (.missingColumns requiredBase)
  else if level_cols cols = [] ∨ cost_cols cols = [] then
    some (.missingMRGroups ["MR_level*".toList, "MR_cost*".toList])
  else if company_cols cols = [] then some .missingCompanyCols
  else none

/-- `on_generate`: abort with a configuration error before building any map,
else run the pipeline. -/
def on_generate (cols : List Str) (mode : ViewMode) (rows : List Row)
    (markup : Option (Except Str (List OverlayFeature))) :
    Except GenError RunOutput :=
  match on_generate_check cols with
  | some e => .error e
  | none => .ok (build_map mode rows markup)

/-! ## Basic properties of `sorted(set(...))` -/

theorem sortedDedup_sorted (l : List Pt) : List.Sorted ptLE (sortedDedup l) :=
  List.sorted_insertionSort ptLE l.dedup

theorem sortedDedup_perm (l : List Pt) : List.Perm (sortedDedup l) l.dedup :=
  List.perm_insertionSort ptLE l.dedup

theorem mem_sortedDedup {l : List Pt} {x : Pt} : x ∈ sortedDedup l ↔ x ∈ l := by
  rw [(sortedDedup_perm l).mem_iff, List.mem_dedup]

theorem sortedDedup_nodup (l : List Pt) : (sortedDedup l).Nodup :=
  (sortedDedup_perm l).nodup_iff.mpr l.nodup_dedup

theorem sortedDedup_eq_of_mem_iff {l l' : List Pt}
    (h : ∀ x, x ∈ l ↔ x ∈ l') : sortedDedup l = sortedDedup l' := by
  refine List.eq_of_perm_of_sorted ?_ (sortedDedup_sorted l) (sortedDedup_sorted l')
  refine (List.perm_ext_iff_of_nodup (sortedDedup_nodup l) (sortedDedup_nodup l')).mpr ?_
  intro a
  rw [mem_sortedDedup, mem_sortedDedup]
  exact h a

theorem sortedDedup_pairwise_lt (l : List Pt) : (sortedDedup l).Pairwise ptLT := by
  have hs : (sortedDedup l).Pairwise ptLE := sortedDedup_sorted l
  have hn : (sortedDedup l).Pairwise (· ≠ ·) := sortedDedup_nodup l
  refine (hs.and hn).imp ?_
  rintro a b ⟨hle, hne⟩
  rcases hle with h1 | ⟨h1, h2⟩
  · exact Or.inl h1
  · refine Or.inr ⟨h1, lt_of_le_of_ne h2 ?_⟩
    intro h2'
    exact hne (Prod.ext h1 h2')

/-! ## C9: convex hull on fewer than three distinct points -/

/-- C9 (amended): for fewer than 3 distinct points, `convex_hull` returns the
deduplicated input in lexicographically sorted order (not in the original
relative order): it is `sorted(set(points))`, sorted, duplicate-free, and has
exactly the input's members. -/
theorem c9_hull_degenerate (points : List Pt)
    (h : (sortedDedup points).length < 3) :
    convex_hull points = sortedDedup points
    ∧ List.Sorted ptLE (convex_hull points)
    ∧ (convex_hull points).Nodup
    ∧ (∀ q, q ∈ convex_hull points ↔ q ∈ points) := by
  have he : convex_hull points = sortedDedup points := by
    unfold convex_hull
    simp [h]
  refine ⟨he, ?_, ?_, ?_⟩
  · rw [he]; exact sortedDedup_sorted points
  · rw [he]; exact sortedDedup_nodup points
  · intro q; rw [he]; exact mem_sortedDedup

/-- Witness for `c9_hull_degenerate` at a concrete two-point input. -/
theorem c9_hull_degenerate_witness :
    (sortedDedup [((1 : Int), (1 : Int)), (0, 0)]).length < 3
    ∧ convex_hull [((1 : Int), (1 : Int)), (0, 0)]
        = sortedDedup [((1 : Int), (1 : Int)), (0, 0)] :=
  ⟨by decide, (c9_hull_degenerate [((1 : Int), (1 : Int)), (0, 0)] (by decide)).1⟩

/-- C9 (counterexample): on the distinct points `[(1,1),(0,0)]` the function
returns the sorted order `[(0,0),(1,1)]`, not the original relative order
`[(1,1),(0,0)]` (which is what deduplication alone would keep). -/
theorem c9_order_counterexample :
    convex_hull [((1 : Int), (1 : Int)), (0, 0)] = [(0, 0), (1, 1)]
    ∧ [((1 : Int), (1 : Int)), (0, 0)].dedup = [(1, 1), (0, 0)]
    ∧ convex_hull [((1 : Int), (1 : Int)), (0, 0)] ≠ [(1, 1), (0, 0)] := by
  decide

/-! ## C1: Utility-mode classification -/

/-- A surviving pole row whose two company cells hold the same company. -/
def rowAEP2 : Row :=
  { job_name := "j1".toList, node_type := "pole".toList, scid := "1".toList,
    latitude := some 0, longitude := some 0,
    mrLevels := [], mrCosts := [], warnings := [],
    companies := [some "AEP".toList, some "AEP".toList] }

/-- C1 (counterexample): a record whose company cells contain the same
canonical company twice has exactly one distinct canonical company, yet the
code classifies it `MultiCompany`, not `SingleCompany`. -/
theorem c1_counterexample :
    (utilCompanies rowAEP2).dedup = ["AEP".toList]
    ∧ (classifyUtility (comp_color [rowAEP2]) rowAEP2).category
        = Category.MultiCompany := by
  decide

/-- C1 (amended): in Utility mode the category is decided by the NUMBER of
non-empty company cells, counted with multiplicity (not by the number of
distinct canonical names): `MultiCompany` iff at least two non-empty cells,
`SingleCompany (canon s)` iff exactly the one non-empty cell `s`, `NoCompany`
iff none. -/
theorem c1_category_by_cell_count (table : List (Str × Str)) (r : Row) :
    ((classifyUtility table r).category = Category.MultiCompany
        ↔ 2 ≤ (raw_comps r).length)
    ∧ (∀ n, (classifyUtility table r).category = Category.SingleCompany n
        ↔ ∃ s, raw_comps r = [s] ∧ n = canon s)
    ∧ ((classifyUtility table r).category = Category.NoCompany
        ↔ raw_comps r = []) := by
  rcases h : raw_comps r with _ | ⟨s, _ | ⟨s', t⟩⟩
  · simp [classifyUtility, utilCompanies, h]
  · simp [classifyUtility, utilCompanies, h, eq_comm]
  · refine ⟨?_, ?_, ?_⟩
    · simp [classifyUtility, utilCompanies, h]
    · simp [classifyUtility, utilCompanies, h]
    · simp [classifyUtility, utilCompanies, h]

/-! ## C7: overlay failure isolation -/

/-- C7: a failing overlay load is reported as a warning, merges zero overlay
features, and leaves every marker and every job-hull feature of the scene
exactly as in a run without overlays; a run without an overlay path reports
nothing. -/
theorem c7_overlay_failure_isolated (mode : ViewMode) (rows : List Row)
    (e : Str) :
    (build_map mode rows (some (Except.error e))).scene.markers
        = (build_map mode rows none).scene.markers
    ∧ (build_map mode rows (some (Except.error e))).scene.hulls
        = (build_map mode rows none).scene.hulls
    ∧ (build_map mode rows (some (Except.error e))).scene.overlays = []
    ∧ (build_map mode rows (some (Except.error e))).warnings
        = ["Could not load markup file:\n".toList ++ e]
    ∧ (build_map mode rows (some (Except.error e))).warnings ≠ []
    ∧ (build_map mode rows none).warnings = [] := by
  refine ⟨rfl, rfl, rfl, rfl, ?_, rfl⟩
  simp [build_map, loadOverlays]

/-! ## C8: required-column checks -/

/-- C8 (amended): a missing required column or group aborts the run with a
configuration error before any map is produced, but the messages list fixed
column sets: the base-columns message always lists all five required columns
(also the present ones), and the MR message always names both MR groups. -/
theorem c8_column_check (cols : List Str) :
    (on_generate_check cols = none
        ↔ ((∀ c ∈ requiredBase, c ∈ cols) ∧ level_cols cols ≠ []
            ∧ cost_cols cols ≠ [] ∧ company_cols cols ≠ []))
    ∧ (∀ L, on_generate_check cols = some (GenError.missingColumns L)
        → L = requiredBase)
    ∧ (∀ L, on_generate_check cols = some (GenError.missingMRGroups L)
        → L = ["MR_level*".toList, "MR_cost*".toList])
    ∧ (∀ e mode rows markup, on_generate_check cols = some e
        → on_generate cols mode rows markup = Except.error e) := by
  refine ⟨?_, ?_, ?_, ?_⟩
  · unfold on_generate_check
    split_ifs with h1 h2 h3 <;> simp_all <;> tauto
  · intro L hL
    unfold on_generate_check at hL
    split_ifs at hL <;> simp_all
  · intro L hL
    unfold on_generate_check at hL
    split_ifs at hL <;> simp_all
  · intro e mode rows markup he
    unfold on_generate
    rw [he]

/-- The column set of a sheet that is missing only `job_name`. -/
def colsMissingJob : List Str :=
  ["latitude".toList, "longitude".toList, "node_type".toList, "scid".toList,
   "MR_Level_1".toList, "a_mr_cost".toList, "company_1".toList]

/-- C8 (counterexample): with only `job_name` missing, the reported message
lists all five base columns — including `latitude`, which is present — so the
message does not enumerate exactly the missing columns. -/
theorem c8_message_counterexample :
    on_generate_check colsMissingJob
      = some (GenError.missingColumns requiredBase)
    ∧ "latitude".toList ∈ requiredBase
    ∧ "latitude".toList ∈ colsMissingJob
    ∧ "job_name".toList ∉ colsMissingJob := by
  decide

/-- Witness for `c8_column_check` at the concrete column set. -/
theorem c8_column_check_witness :
    on_generate colsMissingJob ViewMode.MR [] none
      = Except.error (GenError.missingColumns requiredBase) :=
  (c8_column_check colsMissingJob).2.2.2
    (GenError.missingColumns requiredBase) ViewMode.MR [] none (by decide)

/-! ## C3: company color assignment order -/

/-- Characterization of the `for comp in uniq` loop: known keys are skipped,
unknown keys are appended in traversal order with consecutive palette
colors. -/
theorem addComps_spec (l : List Str) :
    ∀ (m : List (Str × Str)) (idx : Nat), l.Nodup →
      (addComps l (m, idx)).1
        = m ++ (l.filter (fun c => !decide (c ∈ keysOf m))).mapIdx
            (fun i c => (c, PALETTE.getD ((idx + i) % PALETTE.length) [])) := by
  induction l with
  | nil => intro m idx _; simp [addComps]
  | cons comp rest ih =>
    intro m idx hnd
    rw [List.nodup_cons] at hnd
    by_cases hc : comp ∈ keysOf m
    · have : addComps (comp :: rest) (m, idx) = addComps rest (m, idx) := by
        simp [addComps, hc]
      rw [this, ih m idx hnd.2]
      simp [hc]
    · have hstep : addComps (comp :: rest) (m, idx)
          = addComps rest
              (m ++ [(comp, PALETTE.getD (idx % PALETTE.length) [])], idx + 1) := by
        simp [addComps, hc]
      rw [hstep, ih _ _ hnd.2]
      have hkeys : keysOf (m ++ [(comp, PALETTE.getD (idx % PALETTE.length) [])])
          = keysOf m ++ [comp] := by
        simp [keysOf]
      have hfilter :
          rest.filter (fun c => !decide (c ∈ keysOf
              (m ++ [(comp, PALETTE.getD (idx % PALETTE.length) [])])))
            = rest.filter (fun c => !decide (c ∈ keysOf m)) := by
        refine List.filter_congr ?_
        intro x hx
        have hxc : x ≠ comp := fun h => hnd.1 (h ▸ hx)
        simp [keysOf, hxc]
      have hcons : (comp :: rest).filter (fun c => !decide (c ∈ keysOf m))
          = comp :: rest.filter (fun c => !decide (c ∈ keysOf m)) := by
        simp [hc]
      rw [hfilter, hcons, List.mapIdx_cons]
      have hfun : (fun i (c : Str) =>
              (c, PALETTE.getD ((idx + 1 + i) % PALETTE.length) []))
          = (fun i (c : Str) =>
              (c, PALETTE.getD ((idx + (i + 1)) % PALETTE.length) [])) := by
        funext i c
        have : idx + 1 + i = idx + (i + 1) := by omega
        rw [this]
      rw [hfun]
      simp

/-- First-match lookup is stable under appending to the right when the key is
found on the left. -/
theorem lookupStr_append_left {m : List (Str × Str)} {k v : Str}
    (h : lookupStr m k = some v) (t : List (Str × Str)) :
    lookupStr (m ++ t) k = some v := by
  induction m with
  | nil => simp [lookupStr] at h
  | cons a m' ih =>
    unfold lookupStr at h ⊢
    rcases hpa : decide (a.1 = k) with _ | _
    · simp only [List.cons_append, List.find?_cons, hpa] at h ⊢
      exact ih h
    · simp only [List.cons_append, List.find?_cons, hpa] at h ⊢
      exact h

/-- The nodup unique company list really is sorted. -/
theorem uniqComps_sorted (rows : List Row) :
    List.Sorted (· ≤ ·) (uniqComps rows) :=
  List.sorted_insertionSort _ _

theorem uniqComps_nodup (rows : List Row) : (uniqComps rows).Nodup :=
  (List.perm_insertionSort _ _).nodup_iff.mpr (comps rows).nodup_dedup

theorem mem_uniqComps {rows : List Row} {c : Str} :
    c ∈ uniqComps rows ↔ c ∈ comps rows := by
  unfold uniqComps
  rw [(List.perm_insertionSort _ _).mem_iff, List.mem_dedup]

/-- C3 (amended): the four known companies keep their fixed colors, and every
unknown canonical company receives the next palette color (cyclically) in
LEXICOGRAPHICALLY SORTED order of the distinct canonical names — the order of
`sorted(set(comps))` — not in first-seen order. -/
theorem c3_palette_by_sorted_order (rows : List Row) :
    comp_color rows
      = knownCompColors
        ++ ((uniqComps rows).filter
              (fun c => !decide (c ∈ keysOf knownCompColors))).mapIdx
            (fun i c => (c, PALETTE.getD (i % PALETTE.length) []))
    ∧ List.Sorted (· ≤ ·) (uniqComps rows)
    ∧ ∀ p ∈ knownCompColors, lookupStr (comp_color rows) p.1 = some p.2 := by
  have hchar := addComps_spec (uniqComps rows) knownCompColors 0
    (uniqComps_nodup rows)
  simp only [Nat.zero_add] at hchar
  refine ⟨hchar, uniqComps_sorted rows, ?_⟩
  intro p hp
  have hfix : lookupStr knownCompColors p.1 = some p.2 := by
    simp only [knownCompColors, List.mem_cons, List.not_mem_nil, or_false] at hp
    rcases hp with h | h | h | h <;> subst h <;> decide
  unfold comp_color
  rw [hchar]
  exact lookupStr_append_left hfix _

/-- A surviving pole row whose single company is the unknown "Zeta Power". -/
def rowZeta : Row :=
  { job_name := "j1".toList, node_type := "pole".toList, scid := "1".toList,
    latitude := some 0, longitude := some 0,
    mrLevels := [], mrCosts := [], warnings := [],
    companies := [some "Zeta Power".toList] }

/-- A surviving pole row whose single company is the unknown "Alpha Power". -/
def rowAlpha : Row :=
  { job_name := "j2".toList, node_type := "pole".toList, scid := "2".toList,
    latitude := some 0, longitude := some 0,
    mrLevels := [], mrCosts := [], warnings := [],
    companies := [some "Alpha Power".toList] }

/-- C3 (counterexample): "Zeta Power" is encountered FIRST in row order, so
under first-seen assignment it would get the first palette color `blue`; the
code sorts the unknown names and gives "Zeta Power" the second color
`darkblue` (and the later-seen "Alpha Power" gets `blue`). -/
theorem c3_first_seen_counterexample :
    comps [rowZeta, rowAlpha] = ["Zeta Power".toList, "Alpha Power".toList]
    ∧ PALETTE.getD 0 [] = "blue".toList
    ∧ lookupStr (comp_color [rowZeta, rowAlpha]) "Zeta Power".toList
        = some "darkblue".toList
    ∧ lookupStr (comp_color [rowZeta, rowAlpha]) "Alpha Power".toList
        = some "blue".toList := by
  decide

/-! ## C10: reachability of the single-company color fallback -/

theorem dropWhile_dropWhile (p : Char → Bool) (l : Str) :
    (l.dropWhile p).dropWhile p = l.dropWhile p := by
  induction l with
  | nil => rfl
  | cons c cs ih =>
    by_cases h : p c
    · simp [List.dropWhile_cons, h, ih]
    · simp [List.dropWhile_cons, h]

theorem dropWhile_head_not (p : Char → Bool) (l : Str) :
    ∀ c cs, l.dropWhile p = c :: cs → p c = false := by
  induction l with
  | nil => intro c cs h; simp at h
  | cons a as ih =>
    intro c cs h
    by_cases ha : p a
    · rw [List.dropWhile_cons, if_pos ha] at h
      exact ih c cs h
    · rw [List.dropWhile_cons, if_neg ha] at h
      cases h
      simpa using ha

/-- `dropWhile` produces a suffix. -/
theorem dropWhile_isSuffix (p : Char → Bool) (l : Str) :
    ∃ t, t ++ l.dropWhile p = l := by
  induction l with
  | nil => exact ⟨[], rfl⟩
  | cons a as ih =>
    by_cases ha : p a
    · obtain ⟨t, ht⟩ := ih
      exact ⟨a :: t, by simp [List.dropWhile_cons, ha, ht]⟩
    · exact ⟨[], by simp [List.dropWhile_cons, ha]⟩

/-- `str.strip()` is idempotent. -/
theorem trimStr_idem (s : Str) : trimStr (trimStr s) = trimStr s := by
  unfold trimStr
  set p := Char.isWhitespace with hp
  set A := s.dropWhile p with hA
  set B := A.reverse.dropWhile p with hB
  have hBdrop : B.dropWhile p = B := by rw [hB, dropWhile_dropWhile]
  have hBrev : B.reverse.dropWhile p = B.reverse := by
    cases hcase : B.reverse with
    | nil => simp
    | cons c cs =>
      -- the head of `B.reverse` is the head of `A`, which is not whitespace
      obtain ⟨t, ht⟩ := dropWhile_isSuffix p A.reverse
      have hAeq : A = (c :: cs) ++ t.reverse := by
        have := congrArg List.reverse ht
        simp only [List.reverse_append, List.reverse_reverse] at this
        rw [← this, ← hB, hcase]
      have hc : p c = false := by
        refine dropWhile_head_not p s c (cs ++ t.reverse) ?_
        rw [← hA, hAeq]; simp
      simp [List.dropWhile_cons, hc]
  rw [hBrev, List.reverse_reverse, hBdrop]

/-- `canon` only depends on the stripped value. -/
theorem canon_trim (s : Str) : canon (trimStr s) = canon s := by
  unfold canon
  rw [trimStr_idem]

/-- A `SingleCompany` classification comes from exactly one non-empty company
cell. -/
theorem classifyUtility_single {table : List (Str × Str)} {r : Row} {n : Str}
    (h : (classifyUtility table r).category = Category.SingleCompany n) :
    ∃ s, raw_comps r = [s] ∧ n = canon s := by
  rcases hr : raw_comps r with _ | ⟨s, _ | ⟨s', t⟩⟩
  · simp [classifyUtility, utilCompanies, hr] at h
  · simp [classifyUtility, utilCompanies, hr] at h
    exact ⟨s, rfl, h.symm⟩
  · simp [classifyUtility, utilCompanies, hr] at h

/-- A member of `raw_comps` is a present, non-blank company cell. -/
theorem raw_comps_mem {r : Row} {s : Str} (h : s ∈ raw_comps r) :
    some s ∈ r.companies ∧ trimStr s ≠ [] := by
  unfold raw_comps at h
  rw [List.mem_filterMap] at h
  obtain ⟨cell, hcell, hmap⟩ := h
  cases cell with
  | none => simp [cellKeptRaw] at hmap
  | some s' =>
      by_cases hne : trimStr s' ≠ []
      · have : s' = s := by
          simpa [cellKeptRaw, hne] using hmap
        subst this
        exact ⟨hcell, hne⟩
      · simp [cellKeptRaw, hne] at hmap

/-- A non-blank, non-`'nan'` company cell of a scanned row contributes its
canonical value to `comps`. -/
theorem mem_comps_of_mem_cell {rows : List Row} {r : Row} {s : Str}
    (hr : r ∈ rows) (hcell : some s ∈ r.companies) (hne : trimStr s ≠ [])
    (hnan : toLowerStr (trimStr s) ≠ "nan".toList) :
    canon s ∈ comps rows := by
  unfold comps
  rw [List.mem_flatten]
  refine ⟨comps_of_row r, List.mem_map_of_mem _ hr, ?_⟩
  unfold comps_of_row
  rw [List.mem_filterMap]
  refine ⟨some s, hcell, ?_⟩
  show (if trimStr s ≠ [] ∧ toLowerStr (trimStr s) ≠ "nan".toList
        then some (canon (trimStr s)) else none) = some (canon s)
  rw [if_pos ⟨hne, hnan⟩, canon_trim]

theorem map_fst_mapIdx_pair {α β : Type} (l : List α) :
    ∀ g : Nat → α → β,
      (l.mapIdx (fun i c => (c, g i c))).map Prod.fst = l := by
  induction l with
  | nil => intro g; simp
  | cons a t ih =>
      intro g
      rw [List.mapIdx_cons]
      simp only [List.map_cons]
      rw [ih (fun i c => g (i + 1) c)]

/-- Every distinct scanned company name is a key of the color table. -/
theorem mem_keysOf_comp_color {rows : List Row} {c : Str}
    (h : c ∈ uniqComps rows) : c ∈ keysOf (comp_color rows) := by
  have hchar := addComps_spec (uniqComps rows) knownCompColors 0
    (uniqComps_nodup rows)
  unfold comp_color
  unfold keysOf
  rw [hchar, List.map_append, List.mem_append]
  by_cases hk : c ∈ keysOf knownCompColors
  · left
    exact hk
  · right
    rw [map_fst_mapIdx_pair]
    rw [List.mem_filter]
    exact ⟨h, by simpa using hk⟩

/-- C10 (amended): provided no company cell of the record strips to a case
variant of the literal string `"nan"`, a `SingleCompany` name is always a key
of the color table built from the same rows, so the fallback default color is
not used for it.  (The counterexample shows the proviso is necessary.) -/
theorem c10_single_company_has_color (rows : List Row) (r : Row) (n : Str)
    (hr : r ∈ rows)
    (hnan : ∀ s : Str, some s ∈ r.companies
        → toLowerStr (trimStr s) ≠ "nan".toList)
    (hcat : (classifyUtility (comp_color rows) r).category
        = Category.SingleCompany n) :
    n ∈ keysOf (comp_color rows) := by
  obtain ⟨s, hs, hn⟩ := classifyUtility_single hcat
  have hmem : s ∈ raw_comps r := by rw [hs]; exact List.mem_singleton.mpr rfl
  obtain ⟨hcell, hne⟩ := raw_comps_mem hmem
  have hcanon : canon s ∈ comps rows :=
    mem_comps_of_mem_cell hr hcell hne (hnan s hcell)
  subst hn
  exact mem_keysOf_comp_color (mem_uniqComps.mpr hcanon)

/-- A surviving pole row whose single company cell holds the literal string
`"NAN"`. -/
def rowNan : Row :=
  { job_name := "j1".toList, node_type := "pole".toList, scid := "1".toList,
    latitude := some 0, longitude := some 0,
    mrLevels := [], mrCosts := [], warnings := [],
    companies := [some "NAN".toList] }

/-- C10 (counterexample): the row survives the Utility filter and is
classified `SingleCompany "NAN"`, but the color-table scan skips `'nan'`
values, so `"NAN"` is not a key of the table and the single-company color
lookup falls back to the default `PALETTE[0]`: the fallback branch is
reachable. -/
theorem c10_fallback_counterexample :
    filterRows ViewMode.Utility [rowNan] = [rowNan]
    ∧ (classifyUtility (comp_color [rowNan]) rowNan).category
        = Category.SingleCompany "NAN".toList
    ∧ lookupStr (comp_color [rowNan]) "NAN".toList = none
    ∧ (classifyUtility (comp_color [rowNan]) rowNan).color
        = PALETTE.getD 0 [] := by
  decide

/-- Witness for `c10_single_company_has_color` at a concrete row. -/
theorem c10_single_company_has_color_witness :
    "Zeta Power".toList ∈ keysOf (comp_color [rowZeta]) :=
  c10_single_company_has_color [rowZeta] rowZeta "Zeta Power".toList
    (by decide)
    (fun s hs => by
      have h : s = "Zeta Power".toList := by
        simpa [rowZeta] using hs
      subst h
      decide)
    (by decide)

/-- Witness for `c1_category_by_cell_count` at a concrete two-cell row. -/
theorem c1_category_by_cell_count_witness :
    (classifyUtility (comp_color [rowAEP2]) rowAEP2).category
      = Category.MultiCompany :=
  (c1_category_by_cell_count (comp_color [rowAEP2]) rowAEP2).1.mpr (by decide)

/-- Witness for `c3_palette_by_sorted_order` at a concrete run and the known
company `AEP`. -/
theorem c3_palette_by_sorted_order_witness :
    lookupStr (comp_color [rowZeta]) "AEP".toList = some "orange".toList :=
  (c3_palette_by_sorted_order [rowZeta]).2.2
    ("AEP".toList, "orange".toList) (by decide)

/-! ## C4: the PLA rule -/

/-- A row that passes the copy/node-type/coordinate/SCID stages. -/
def survivesBasic (r : Row) : Bool :=
  !containsCI "copy".toList r.job_name
  && decide (toLowerStr r.node_type = "pole".toList)
  && (r.latitude.isSome && r.longitude.isSome)
  && scidOk r.scid

/-- The four row-local stages keep a row set all of whose rows pass them. -/
theorem basicStages_eq_self {rows : List Row}
    (h : ∀ r ∈ rows, survivesBasic r = true) :
    keepScid (dropNoCoord (keepPoles (dropCopy rows))) = rows := by
  have h1 : dropCopy rows = rows := by
    refine List.filter_eq_self.mpr ?_
    intro r hr
    have hb := h r hr
    simp only [survivesBasic, Bool.and_eq_true] at hb
    tauto
  rw [h1]
  have h2 : keepPoles rows = rows := by
    refine List.filter_eq_self.mpr ?_
    intro r hr
    have hb := h r hr
    simp only [survivesBasic, Bool.and_eq_true] at hb
    tauto
  rw [h2]
  have h3 : dropNoCoord rows = rows := by
    refine List.filter_eq_self.mpr ?_
    intro r hr
    have hb := h r hr
    simp only [survivesBasic, Bool.and_eq_true, Bool.not_eq_eq_eq_not] at hb
    simp only [Bool.and_eq_true]
    tauto
  rw [h3]
  refine List.filter_eq_self.mpr ?_
  intro r hr
  have hb := h r hr
  simp only [survivesBasic, Bool.and_eq_true] at hb
  tauto

/-- The AT&T/Charter stage keeps a row set none of whose rows match. -/
theorem utilityCompanyStage_eq_self {rows : List Row}
    (h : ∀ r ∈ rows, r.companies.any companyExcluded = false) :
    utilityCompanyStage rows = rows := by
  refine List.filter_eq_self.mpr ?_
  intro r hr
  simp [h r hr]

/-- C4: the PLA rule.
(1) In Utility mode, for an input of `jobA`/`jobA PLA` rows (all passing the
row-local stages and the company exclusion) with at least one `jobA PLA` row,
exactly the `jobA PLA` rows survive the filter.
(2) In Utility mode, an input all of one job name that contains no `PLA`
token survives unchanged.
(3) In MR mode, every row surviving the filter has no standalone `PLA` token
in its job name, regardless of what other rows are present. -/
theorem c4_pla_filtering :
    (∀ rows : List Row,
      (∀ r ∈ rows, survivesBasic r = true)
      → (∀ r ∈ rows, r.companies.any companyExcluded = false)
      → (∀ r ∈ rows, r.job_name = "jobA".toList
          ∨ r.job_name = "jobA PLA".toList)
      → (∃ r ∈ rows, r.job_name = "jobA PLA".toList)
      → filterRows ViewMode.Utility rows
          = rows.filter (fun r => decide (r.job_name = "jobA PLA".toList)))
    ∧ (∀ (rows : List Row) (j : Str),
      (∀ r ∈ rows, survivesBasic r = true)
      → (∀ r ∈ rows, r.companies.any companyExcluded = false)
      → (∀ r ∈ rows, r.job_name = j)
      → containsPLA j = false
      → filterRows ViewMode.Utility rows = rows)
    ∧ (∀ (rows : List Row) (r : Row),
      r ∈ filterRows ViewMode.MR rows → containsPLA r.job_name = false) := by
  have hA : containsPLA "jobA".toList = false := by decide
  have hAP : containsPLA "jobA PLA".toList = true := by decide
  have hbaseA : base_job "jobA".toList = "jobA".toList := by decide
  have hbaseAP : base_job "jobA PLA".toList = "jobA".toList := by decide
  refine ⟨?_, ?_, ?_⟩
  · intro rows hbasic hcomp hjobs hex
    show utilityCompanyStage
        (plaStage (keepScid (dropNoCoord (keepPoles (dropCopy rows))))) = _
    rw [basicStages_eq_self hbasic]
    have hmem : "jobA".toList ∈ plaBases rows := by
      obtain ⟨r0, hr0, hj0⟩ := hex
      unfold plaBases
      refine List.mem_map.mpr ⟨r0, ?_, by rw [hj0, hbaseAP]⟩
      refine List.mem_filter.mpr ⟨hr0, by rw [hj0, hAP]⟩
    have hpla : plaStage rows
        = rows.filter (fun r => decide (r.job_name = "jobA PLA".toList)) := by
      unfold plaStage
      refine List.filter_congr ?_
      intro r hr
      rcases hjobs r hr with h | h <;> rw [h]
      · rw [hbaseA, hA]
        have hne : decide (("jobA".toList : Str) = "jobA PLA".toList) = false := by
          decide
        rw [hne]
        simpa using hmem
      · rw [hbaseAP, hAP]
        have he : decide (("jobA PLA".toList : Str) = "jobA PLA".toList) = true := by
          decide
        rw [he]
        simp [hmem]
    rw [hpla]
    refine utilityCompanyStage_eq_self ?_
    intro r hr
    exact hcomp r (List.mem_of_mem_filter hr)
  · intro rows j hbasic hcomp hjob hnopla
    show utilityCompanyStage
        (plaStage (keepScid (dropNoCoord (keepPoles (dropCopy rows))))) = _
    rw [basicStages_eq_self hbasic]
    have hempty : plaBases rows = [] := by
      unfold plaBases
      have : rows.filter (fun r => containsPLA r.job_name) = [] := by
        rw [List.filter_eq_nil_iff]
        intro r hr
        rw [hjob r hr, hnopla]
        simp
      rw [this, List.map_nil]
    have hpla : plaStage rows = rows := by
      unfold plaStage
      refine List.filter_eq_self.mpr ?_
      intro r hr
      simp [hempty]
    rw [hpla]
    exact utilityCompanyStage_eq_self hcomp
  · intro rows r hr
    have : r ∈ (keepScid (dropNoCoord (keepPoles (dropCopy rows)))).filter
        (fun r => !containsPLA r.job_name) := hr
    have := (List.mem_filter.mp this).2
    simpa using this

/-- A surviving `jobA` pole row. -/
def demoJobA : Row :=
  { job_name := "jobA".toList, node_type := "pole".toList, scid := "1".toList,
    latitude := some 0, longitude := some 0,
    mrLevels := [], mrCosts := [], warnings := [], companies := [] }

/-- A surviving `jobA PLA` pole row. -/
def demoJobAP : Row :=
  { job_name := "jobA PLA".toList, node_type := "pole".toList,
    scid := "2".toList, latitude := some 1, longitude := some 1,
    mrLevels := [], mrCosts := [], warnings := [], companies := [] }

/-- A surviving `jobB` pole row. -/
def demoJobB : Row :=
  { job_name := "jobB".toList, node_type := "pole".toList, scid := "3".toList,
    latitude := some 2, longitude := some 2,
    mrLevels := [], mrCosts := [], warnings := [], companies := [] }

/-- Witness for `c4_pla_filtering` at concrete inputs. -/
theorem c4_pla_filtering_witness :
    filterRows ViewMode.Utility [demoJobA, demoJobAP] = [demoJobAP]
    ∧ filterRows ViewMode.Utility [demoJobB] = [demoJobB]
    ∧ containsPLA demoJobA.job_name = false := by
  obtain ⟨h1, h2, h3⟩ := c4_pla_filtering
  refine ⟨?_, ?_, ?_⟩
  · rw [h1 [demoJobA, demoJobAP] (by decide) (by decide) (by decide)
      (by decide)]
    decide
  · exact h2 [demoJobB] "jobB".toList (by decide) (by decide) (by decide)
      (by decide)
  · exact h3 [demoJobA] demoJobA (by decide)

/-! ## C6: filter idempotence -/

/-- Members of the first four stages pass them. -/
theorem mem_basicStages {rows : List Row} {r : Row}
    (h : r ∈ keepScid (dropNoCoord (keepPoles (dropCopy rows)))) :
    r ∈ rows ∧ survivesBasic r = true := by
  unfold keepScid dropNoCoord keepPoles dropCopy at h
  simp only [List.mem_filter, Bool.and_eq_true] at h
  unfold survivesBasic
  simp only [Bool.and_eq_true]
  tauto

/-- Members of the filter output are input rows passing the row-local
stages. -/
theorem mem_filterRows {mode : ViewMode} {rows : List Row} {r : Row}
    (h : r ∈ filterRows mode rows) :
    r ∈ rows ∧ survivesBasic r = true := by
  cases mode with
  | MR =>
      have : r ∈ (keepScid (dropNoCoord (keepPoles (dropCopy rows)))).filter
          (fun r => !containsPLA r.job_name) := h
      exact mem_basicStages (List.mem_of_mem_filter this)
  | Utility =>
      have h1 : r ∈ utilityCompanyStage (plaStage
          (keepScid (dropNoCoord (keepPoles (dropCopy rows))))) := h
      have h2 := List.mem_of_mem_filter h1
      have h3 := List.mem_of_mem_filter h2
      exact mem_basicStages h3

/-- C6: the record filter is idempotent in both view modes: filtering its own
output changes nothing. -/
theorem c6_filter_idempotent (mode : ViewMode) (rows : List Row) :
    filterRows mode (filterRows mode rows) = filterRows mode rows := by
  cases mode with
  | MR =>
      set F := filterRows ViewMode.MR rows with hF
      have hbasic : ∀ r ∈ F, survivesBasic r = true :=
        fun r hr => (mem_filterRows hr).2
      show (keepScid (dropNoCoord (keepPoles (dropCopy F)))).filter
          (fun r => !containsPLA r.job_name) = F
      rw [basicStages_eq_self hbasic]
      refine List.filter_eq_self.mpr ?_
      intro r hr
      have : r ∈ (keepScid (dropNoCoord (keepPoles (dropCopy rows)))).filter
          (fun r => !containsPLA r.job_name) := hr
      exact (List.mem_filter.mp this).2
  | Utility =>
      set F := filterRows ViewMode.Utility rows with hF
      have hbasic : ∀ r ∈ F, survivesBasic r = true :=
        fun r hr => (mem_filterRows hr).2
      have hmemPla : ∀ r ∈ F, r ∈ plaStage
          (keepScid (dropNoCoord (keepPoles (dropCopy rows)))) := by
        intro r hr
        have : r ∈ utilityCompanyStage (plaStage
            (keepScid (dropNoCoord (keepPoles (dropCopy rows))))) := hr
        exact List.mem_of_mem_filter this
      have hcompF : ∀ r ∈ F, r.companies.any companyExcluded = false := by
        intro r hr
        have : r ∈ utilityCompanyStage (plaStage
            (keepScid (dropNoCoord (keepPoles (dropCopy rows))))) := hr
        have := (List.mem_filter.mp this).2
        simpa using this
      show utilityCompanyStage
          (plaStage (keepScid (dropNoCoord (keepPoles (dropCopy F))))) = F
      rw [basicStages_eq_self hbasic]
      have hkey : ∀ r ∈ F, base_job r.job_name ∈ plaBases F
          → containsPLA r.job_name = true := by
        intro r hr hmem
        -- the PLA witness for this base also survived, so after one pass the
        -- base is PLA-marked in the pre-company row set as well
        unfold plaBases at hmem
        rw [List.mem_map] at hmem
        obtain ⟨r', hr', hbase⟩ := hmem
        rw [List.mem_filter] at hr'
        have hr'r4 := List.mem_of_mem_filter (hmemPla r' hr'.1)
        have hbase4 : base_job r.job_name ∈ plaBases
            (keepScid (dropNoCoord (keepPoles (dropCopy rows)))) := by
          unfold plaBases
          rw [List.mem_map]
          exact ⟨r', List.mem_filter.mpr ⟨hr'r4, hr'.2⟩, hbase⟩
        have hrp := hmemPla r hr
        unfold plaStage at hrp
        rw [List.mem_filter] at hrp
        have hcond := hrp.2
        rw [decide_eq_true hbase4] at hcond
        simpa using hcond
      have hpla : plaStage F = F := by
        unfold plaStage
        refine List.filter_eq_self.mpr ?_
        intro r hr
        by_cases hmem : base_job r.job_name ∈ plaBases F
        · simp [hmem, hkey r hr hmem]
        · simp [hmem]
      rw [hpla]
      exact utilityCompanyStage_eq_self hcompF

/-! ## Geometry of the monotone chain: cross-product lemmas -/

theorem cross_same_last (o a : Pt) : cross o a a = 0 := by unfold cross; ring

theorem cross_back_to_base (o a : Pt) : cross o a o = 0 := by unfold cross; ring

theorem cross_first_two (o a : Pt) : cross o o a = 0 := by unfold cross; ring

theorem ptLT_x {a b : Pt} (h : ptLT a b) : a.1 ≤ b.1 := by
  unfold ptLT at h; omega

theorem ptLE_x {a b : Pt} (h : ptLE a b) : a.1 ≤ b.1 := by
  unfold ptLE at h; omega

theorem ptLE_refl (a : Pt) : ptLE a a := by unfold ptLE; omega

theorem ptLT_le {a b : Pt} (h : ptLT a b) : ptLE a b := by
  unfold ptLT at h; unfold ptLE; omega

/-- For x-ordered points, a left turn at `(a,b,c)` followed by a left turn at
`(b,c,d)` forces a left turn at `(a,b,d)`. -/
theorem cross_trans_left {a b c d : Pt}
    (hab : a.1 ≤ b.1) (hbc : b.1 ≤ c.1) (hcd : c.1 ≤ d.1)
    (h1 : 0 < cross a b c) (h2 : 0 < cross b c d) : 0 < cross a b d := by
  have key : (c.1 - b.1) * cross a b d
      = (d.1 - b.1) * cross a b c + (b.1 - a.1) * cross b c d := by
    unfold cross; ring
  rcases eq_or_lt_of_le hbc with heq | hlt
  · exfalso
    have e1 : cross a b c = (b.1 - a.1) * (c.2 - b.2) := by
      unfold cross; rw [← heq]; ring
    have e2 : cross b c d = -((c.2 - b.2) * (d.1 - b.1)) := by
      unfold cross; rw [← heq]; ring
    have hba : 0 < b.1 - a.1 ∧ 0 < c.2 - b.2 := by
      rcases mul_pos_iff.mp (e1 ▸ h1) with h | h
      · exact h
      · exfalso; omega
    have : (c.2 - b.2) * (d.1 - b.1) < 0 := by
      have := e2 ▸ h2; omega
    have hdb : d.1 - b.1 < 0 := by
      rcases mul_neg_iff.mp this with ⟨_, h⟩ | ⟨h, _⟩
      · exact h
      · exfalso; omega
    omega
  · have t1 : 0 ≤ (d.1 - b.1) * cross a b c :=
      mul_nonneg (by omega) h1.le
    have t2 : 0 ≤ (b.1 - a.1) * cross b c d :=
      mul_nonneg (by omega) h2.le
    have hge : 0 ≤ (c.1 - b.1) * cross a b d := by rw [key]; linarith
    have hG0 : 0 ≤ cross a b d := by
      by_contra hneg
      push_neg at hneg
      nlinarith
    rcases eq_or_lt_of_le hG0 with hzero | hpos
    · exfalso
      have hsum : (d.1 - b.1) * cross a b c + (b.1 - a.1) * cross b c d = 0 := by
        rw [← key, ← hzero, mul_zero]
      have hz1 : (d.1 - b.1) * cross a b c = 0 := by linarith
      have hdb : d.1 = b.1 := by
        rcases mul_eq_zero.mp hz1 with h | h
        · omega
        · linarith
      omega
    · exact hpos

/-- New-edge lemma, popped case: if `p` is on or below the chain edge
`(a, b)` and `q` is on or above it, with `a` lexicographically minimal among
`a, q` and `a.1 ≤ p.1`, then `q` is on or left of the new edge `(a, p)`. -/
theorem cross_edge_low {a b p q : Pt}
    (hab : ptLT a b) (haq : ptLE a q) (hap : a.1 ≤ p.1)
    (h1 : 0 ≤ cross a b q) (h2 : cross a b p ≤ 0) : 0 ≤ cross a p q := by
  have key : (b.1 - a.1) * cross a p q
      = (p.1 - a.1) * cross a b q - (q.1 - a.1) * cross a b p := by
    unfold cross; ring
  have hqx : a.1 ≤ q.1 := ptLE_x haq
  rcases hab with hx | ⟨hx, hy⟩
  · have t1 : 0 ≤ (p.1 - a.1) * cross a b q :=
      mul_nonneg (by omega) h1
    have t2 : (q.1 - a.1) * cross a b p ≤ 0 :=
      mul_nonpos_of_nonneg_of_nonpos (by omega) h2
    have hge : 0 ≤ (b.1 - a.1) * cross a p q := by rw [key]; linarith
    by_contra hneg
    push_neg at hneg
    nlinarith
  · have e1 : cross a b q = -((b.2 - a.2) * (q.1 - a.1)) := by
      unfold cross; rw [← hx]; ring
    have hq1 : q.1 = a.1 := by nlinarith [e1 ▸ h1]
    have hq2 : a.2 ≤ q.2 := by
      rcases haq with h | ⟨_, h⟩
      · omega
      · exact h
    have e2 : cross a p q = (p.1 - a.1) * (q.2 - a.2) := by
      unfold cross; rw [hq1]; ring
    rw [e2]
    exact mul_nonneg (by omega) (by omega)

/-- New-edge lemma, stop case: if `p` is strictly left of the chain edge
`(a, b)` and `q` is on or above it with `q.1 ≤ b.1 ≤ p.1`, then `q` is on or
left of the new edge `(b, p)`. -/
theorem cross_edge_high {a b p q : Pt}
    (hab : ptLT a b) (hqb : q.1 ≤ b.1) (hbp : b.1 ≤ p.1)
    (h1 : 0 ≤ cross a b q) (h2 : 0 < cross a b p) : 0 ≤ cross b p q := by
  have key : (b.1 - a.1) * cross b p q
      = (p.1 - b.1) * cross a b q - (q.1 - b.1) * cross a b p := by
    unfold cross; ring
  rcases hab with hx | ⟨hx, hy⟩
  · have t1 : 0 ≤ (p.1 - b.1) * cross a b q :=
      mul_nonneg (by omega) h1
    have t2 : (q.1 - b.1) * cross a b p ≤ 0 :=
      mul_nonpos_of_nonpos_of_nonneg (by omega) h2.le
    have hge : 0 ≤ (b.1 - a.1) * cross b p q := by rw [key]; linarith
    by_contra hneg
    push_neg at hneg
    nlinarith
  · exfalso
    have e : cross a b p = -((b.2 - a.2) * (p.1 - a.1)) := by
      unfold cross; rw [← hx]; ring
    nlinarith [e ▸ h2]

/-! ## Chain predicates (on the reversed chains built by `chainFold`) -/

/-- Consecutive forward triples of the reversed chain all turn strictly
left. -/
def RevLeft : List Pt → Prop
  | z :: y :: x :: rest => 0 < cross x y z ∧ RevLeft (y :: x :: rest)
  | _ => True

/-- `q` lies on or left of every forward edge of the reversed chain. -/
def RevAbove (q : Pt) : List Pt → Prop
  | y :: x :: rest => 0 ≤ cross x y q ∧ RevAbove q (x :: rest)
  | _ => True

theorem revLeft_tail {z : Pt} {l : List Pt} (h : RevLeft (z :: l)) :
    RevLeft l := by
  match l with
  | [] => trivial
  | [x] => trivial
  | y :: x :: rest => exact h.2

theorem revAbove_tail {q z : Pt} {l : List Pt} (h : RevAbove q (z :: l)) :
    RevAbove q l := by
  match l with
  | [] => trivial
  | x :: rest => exact h.2

theorem revLeft_suffix {l s : List Pt} (h : RevLeft l) (hs : s <:+ l) :
    RevLeft s := by
  obtain ⟨t, rfl⟩ := hs
  induction t with
  | nil => exact h
  | cons a t ih => exact ih (revLeft_tail h)

theorem revAbove_suffix {q : Pt} {l s : List Pt} (h : RevAbove q l)
    (hs : s <:+ l) : RevAbove q s := by
  obtain ⟨t, rfl⟩ := hs
  induction t with
  | nil => exact h
  | cons a t ih => exact ih (revAbove_tail h)

/-! ## Structure of `popWhile` -/

theorem popWhile_isSuffix (p : Pt) : ∀ l : List Pt, popWhile p l <:+ l
  | [] => List.suffix_rfl
  | [x] => List.suffix_rfl
  | b :: a :: rest => by
      by_cases h : cross a b p ≤ 0
      · have heq : popWhile p (b :: a :: rest) = popWhile p (a :: rest) := by
          simp [popWhile, h]
        rw [heq]
        exact (popWhile_isSuffix p (a :: rest)).trans (List.suffix_cons b _)
      · have heq : popWhile p (b :: a :: rest) = b :: a :: rest := by
          simp [popWhile, h]
        rw [heq]

theorem popWhile_ne {p : Pt} : ∀ {l : List Pt}, l ≠ [] → popWhile p l ≠ []
  | [], h => absurd rfl h
  | [x], _ => by simp [popWhile]
  | b :: a :: rest, _ => by
      by_cases h : cross a b p ≤ 0
      · have heq : popWhile p (b :: a :: rest) = popWhile p (a :: rest) := by
          simp [popWhile, h]
        rw [heq]
        exact popWhile_ne (by simp)
      · simp [popWhile, h]

theorem popWhile_stop {p : Pt} :
    ∀ {l b a rest}, popWhile p l = b :: a :: rest → 0 < cross a b p
  | [], b, a, rest => by simp [popWhile]
  | [x], b, a, rest => by simp [popWhile]
  | b' :: a' :: rest', b, a, rest => by
      intro h
      by_cases hc : cross a' b' p ≤ 0
      · have heq : popWhile p (b' :: a' :: rest') = popWhile p (a' :: rest') := by
          simp [popWhile, hc]
        rw [heq] at h
        exact popWhile_stop h
      · have heq : popWhile p (b' :: a' :: rest') = b' :: a' :: rest' := by
          simp [popWhile, hc]
        rw [heq] at h
        cases h
        omega

theorem popWhile_cases (p : Pt) : ∀ l : List Pt, popWhile p l = l
    ∨ ∃ z a rest, popWhile p l = a :: rest ∧ (z :: a :: rest) <:+ l
        ∧ cross a z p ≤ 0
  | [] => Or.inl rfl
  | [x] => Or.inl rfl
  | b :: a :: rest => by
      by_cases h : cross a b p ≤ 0
      · have heq : popWhile p (b :: a :: rest) = popWhile p (a :: rest) := by
          simp [popWhile, h]
        rcases popWhile_cases p (a :: rest) with h2 | ⟨z, a', rest', h3, h4, h5⟩
        · right
          exact ⟨b, a, rest, by rw [heq, h2], List.suffix_rfl, h⟩
        · right
          exact ⟨z, a', rest', by rw [heq, h3],
            h4.trans (List.suffix_cons b _), h5⟩
      · left
        simp [popWhile, h]

theorem isSuffix_getLast? {l s : List Pt} (hs : s <:+ l) (hne : s ≠ []) :
    s.getLast? = l.getLast? := by
  obtain ⟨t, rfl⟩ := hs
  exact (List.getLast?_append_of_ne_nil t hne).symm

theorem popWhile_getLast {p : Pt} {l : List Pt} (h : l ≠ []) :
    (popWhile p l).getLast? = l.getLast? :=
  isSuffix_getLast? (popWhile_isSuffix p l) (popWhile_ne h)

/-! ## Sorted-list helpers -/

theorem sorted_le_getLast : ∀ {l : List Pt}, l.Pairwise ptLT →
    ∀ {q m : Pt}, q ∈ l → l.getLast? = some m → ptLE q m := by
  intro l
  induction l with
  | nil => intro _ q m hq _; simp at hq
  | cons x t ih =>
      intro h q m hq hm
      cases t with
      | nil =>
          have hqx : q = x := by simpa using hq
          have hxm : x = m := by simpa using hm
          subst hqx; subst hxm
          exact ptLE_refl q
      | cons y t' =>
          have hm' : (y :: t').getLast? = some m := by
            simpa [List.getLast?_cons_cons] using hm
          rcases List.mem_cons.mp hq with rfl | hq'
          · have hmem : m ∈ y :: t' := by
              have := List.mem_of_mem_getLast? (l := y :: t') (a := m)
              exact this (by simp [hm'])
            exact ptLT_le ((List.pairwise_cons.mp h).1 m hmem)
          · exact ih (List.pairwise_cons.mp h).2 hq' hm'

theorem sorted_head_le {l : List Pt} (h : l.Pairwise ptLT) {q m : Pt}
    (hq : q ∈ l) (hm : l.head? = some m) : ptLE m q := by
  cases l with
  | nil => simp at hq
  | cons x t =>
      have hx : x = m := by simpa using hm
      subst hx
      rcases List.mem_cons.mp hq with rfl | hq'
      · exact ptLE_refl q
      · exact ptLT_le ((List.pairwise_cons.mp h).1 q hq')

/-- If the stop condition holds at the top of a left-turning, sorted chain,
then `p` is strictly left of every edge of the chain. -/
theorem strict_above_chain : ∀ (rest : List Pt) (a b p : Pt),
    RevLeft (b :: a :: rest)
    → (p :: b :: a :: rest).Pairwise (fun x y => ptLT y x)
    → 0 < cross a b p
    → RevAbove p (b :: a :: rest)
  | [], a, b, p, _, _, hs => ⟨hs.le, trivial⟩
  | c :: rest', a, b, p, hleft, hsort, hs => by
      have hcab : 0 < cross c a b := hleft.1
      have h3 : ptLT b p := (List.pairwise_cons.mp hsort).1 b (by simp)
      have htl1 := (List.pairwise_cons.mp hsort).2
      have h2 : ptLT a b := (List.pairwise_cons.mp htl1).1 a (by simp)
      have htl2 := (List.pairwise_cons.mp htl1).2
      have h1 : ptLT c a := (List.pairwise_cons.mp htl2).1 c (by simp)
      have hT : 0 < cross c a p :=
        cross_trans_left (ptLT_x h1) (ptLT_x h2) (ptLT_x h3) hcab hs
      have hsub : (p :: a :: c :: rest').Sublist (p :: b :: a :: c :: rest') :=
        List.Sublist.cons₂ p (List.sublist_cons_self b (a :: c :: rest'))
      have ih := strict_above_chain rest' c a p hleft.2
        (List.Pairwise.sublist hsub hsort) hT
      exact ⟨hs.le, ih⟩

/-! ## The chain invariant -/

/-- Invariant of the monotone-chain fold: after processing the sorted prefix
`done`, the reversed chain `acc` is a nonempty subsequence of `done` running
from its first to its last point, turning strictly left, with every processed
point on or left of every chain edge. -/
structure ChainInv (done acc : List Pt) : Prop where
  ne : acc ≠ []
  head_eq : acc.head? = done.getLast?
  last_eq : acc.getLast? = done.head?
  sub : acc.reverse.Sublist done
  turns : RevLeft acc
  above : ∀ q ∈ done, RevAbove q acc

theorem ChainInv.pair {done acc : List Pt} (hinv : ChainInv done acc)
    (hsorted : done.Pairwise ptLT) :
    acc.Pairwise (fun x y => ptLT y x) := by
  have h := List.Pairwise.sublist hinv.sub hsorted
  exact List.pairwise_reverse.mp h

theorem ChainInv.mem_done {done acc : List Pt} (hinv : ChainInv done acc)
    {x : Pt} (hx : x ∈ acc) : x ∈ done :=
  hinv.sub.subset (by simpa using hx)

theorem ChainInv.done_ne {done acc : List Pt} (hinv : ChainInv done acc) :
    done ≠ [] := by
  intro h
  subst h
  have h2 : acc.reverse = [] := List.sublist_nil.mp hinv.sub
  exact hinv.ne (by simpa using h2)

/-- The processed point `q` is on or left of the new edge created by pushing
`p`. -/
theorem new_edge_above {done acc : List Pt} {p q a : Pt} {rest : List Pt}
    (hinv : ChainInv done acc)
    (hsorted : (done ++ [p]).Pairwise ptLT)
    (hq : q ∈ done)
    (hpop : popWhile p acc = a :: rest) :
    0 ≤ cross a p q := by
  have hsd : done.Pairwise ptLT :=
    List.Pairwise.sublist (List.sublist_append_left done [p]) hsorted
  have hpair : acc.Pairwise (fun x y => ptLT y x) := hinv.pair hsd
  have hlt_p : ∀ x ∈ done, ptLT x p := by
    have h := (List.pairwise_append.mp hsorted).2.2
    intro x hx
    exact h x hx p (by simp)
  have hqp : ptLT q p := hlt_p q hq
  have hsufpop := popWhile_isSuffix p acc
  have hmem_a : a ∈ acc := (hpop ▸ hsufpop).subset (by simp)
  have ha_done : a ∈ done := hinv.mem_done hmem_a
  have hap : a.1 ≤ p.1 := ptLT_x (hlt_p a ha_done)
  rcases popWhile_cases p acc with hcase | ⟨z, a', rest', heq, hsuf, hzp⟩
  · have hacc : acc = a :: rest := by rw [← hcase, hpop]
    have hha : done.getLast? = some a := by rw [← hinv.head_eq, hacc]; rfl
    have hqa : ptLE q a := sorted_le_getLast hsd hq hha
    cases rest with
    | nil =>
        have hla : done.head? = some a := by rw [← hinv.last_eq, hacc]; rfl
        have haq : ptLE a q := sorted_head_le hsd hq hla
        have hqea : q = a := ptLE_antisymm hqa haq
        rw [hqea, cross_back_to_base]
    | cons a2 rest2 =>
        have hstop : 0 < cross a2 a p := popWhile_stop hpop
        have hab : ptLT a2 a := by
          rw [hacc] at hpair
          exact (List.pairwise_cons.mp hpair).1 a2 (by simp)
        have h1 : 0 ≤ cross a2 a q := by
          have h := hinv.above q hq
          rw [hacc] at h
          exact h.1
        exact cross_edge_high hab (ptLE_x hqa) hap h1 hstop
  · rw [hpop] at heq
    injection heq with h1 h2
    subst h1
    subst h2
    have hza : ptLT a z := by
      have hp2 := List.Pairwise.sublist hsuf.sublist hpair
      exact (List.pairwise_cons.mp hp2).1 a (by simp)
    have h_za_above : 0 ≤ cross a z q :=
      (revAbove_suffix (hinv.above q hq) hsuf).1
    rcases ptLE_total a q with haq | hqa
    · exact cross_edge_low hza haq hap h_za_above hzp
    · cases rest with
      | nil =>
          have hla : done.head? = some a := by
            rw [← hinv.last_eq, ← popWhile_getLast (p := p) hinv.ne, hpop]
            rfl
          have haq2 : ptLE a q := sorted_head_le hsd hq hla
          have hqea : q = a := ptLE_antisymm hqa haq2
          rw [hqea, cross_back_to_base]
      | cons a2 rest2 =>
          have hstop : 0 < cross a2 a p := popWhile_stop hpop
          have hsuf2 : (a :: a2 :: rest2) <:+ acc :=
            (List.suffix_cons z _).trans hsuf
          have hab : ptLT a2 a := by
            have hp2 := List.Pairwise.sublist hsuf2.sublist hpair
            exact (List.pairwise_cons.mp hp2).1 a2 (by simp)
          have h1 : 0 ≤ cross a2 a q :=
            (revAbove_suffix (hinv.above q hq) hsuf2).1
          exact cross_edge_high hab (ptLE_x hqa) hap h1 hstop

/-- Processing one more (strictly greater) point preserves the chain
invariant. -/
theorem chainStep_inv {done acc : List Pt} {p : Pt}
    (hsorted : (done ++ [p]).Pairwise ptLT)
    (hinv : ChainInv done acc) :
    ChainInv (done ++ [p]) (chainStep acc p) := by
  have hsd : done.Pairwise ptLT :=
    List.Pairwise.sublist (List.sublist_append_left done [p]) hsorted
  have hpair : acc.Pairwise (fun x y => ptLT y x) := hinv.pair hsd
  have hlt_p : ∀ x ∈ done, ptLT x p := by
    have h := (List.pairwise_append.mp hsorted).2.2
    intro x hx
    exact h x hx p (by simp)
  obtain ⟨a, rest, hpop⟩ : ∃ a rest, popWhile p acc = a :: rest := by
    rcases hpw : popWhile p acc with _ | ⟨a, rest⟩
    · exact absurd hpw (popWhile_ne hinv.ne)
    · exact ⟨a, rest, rfl⟩
  have hsufpop := popWhile_isSuffix p acc
  constructor
  · show p :: popWhile p acc ≠ []
    simp
  · show (p :: popWhile p acc).head? = (done ++ [p]).getLast?
    rw [List.getLast?_concat]
    rfl
  · show (p :: popWhile p acc).getLast? = (done ++ [p]).head?
    rw [hpop, List.getLast?_cons_cons, ← hpop, popWhile_getLast hinv.ne,
      hinv.last_eq]
    cases done with
    | nil => exact absurd rfl hinv.done_ne
    | cons d t => rfl
  · show (p :: popWhile p acc).reverse.Sublist (done ++ [p])
    rw [List.reverse_cons]
    have h1 : (popWhile p acc).reverse.Sublist acc.reverse :=
      hsufpop.reverse.sublist
    exact List.Sublist.append (h1.trans hinv.sub) (List.Sublist.refl [p])
  · show RevLeft (p :: popWhile p acc)
    rw [hpop]
    cases rest with
    | nil => trivial
    | cons a2 rest2 =>
        exact ⟨popWhile_stop hpop,
          revLeft_suffix hinv.turns (hpop ▸ hsufpop)⟩
  · intro q hqmem
    rcases List.mem_append.mp hqmem with hq | hq
    · show RevAbove q (p :: popWhile p acc)
      rw [hpop]
      exact ⟨new_edge_above hinv hsorted hq hpop,
        revAbove_suffix (hinv.above q hq) (hpop ▸ hsufpop)⟩
    · have hqp : q = p := by simpa using hq
      subst hqp
      show RevAbove q (q :: popWhile q acc)
      rw [hpop]
      cases rest with
      | nil => exact ⟨le_of_eq (cross_same_last a q).symm, trivial⟩
      | cons a2 rest2 =>
          refine ⟨le_of_eq (cross_same_last a q).symm, ?_⟩
          have hsub2 : (a :: a2 :: rest2) <:+ acc := hpop ▸ hsufpop
          have hleft2 : RevLeft (a :: a2 :: rest2) :=
            revLeft_suffix hinv.turns hsub2
          have hpair2 : (a :: a2 :: rest2).Pairwise (fun x y => ptLT y x) :=
            List.Pairwise.sublist hsub2.sublist hpair
          have hpfull : (q :: a :: a2 :: rest2).Pairwise
              (fun x y => ptLT y x) := by
            refine List.pairwise_cons.mpr ⟨?_, hpair2⟩
            intro y hy
            exact hlt_p y (hinv.mem_done (hsub2.subset hy))
          exact strict_above_chain rest2 a2 a q hleft2 hpfull
            (popWhile_stop hpop)

/-- The invariant propagates through the whole fold. -/
theorem chainFold_inv : ∀ (todo done acc : List Pt),
    ChainInv done acc → (done ++ todo).Pairwise ptLT
    → ChainInv (done ++ todo) (todo.foldl chainStep acc)
  | [], done, acc, hinv, _ => by simpa using hinv
  | p :: todo', done, acc, hinv, hsorted => by
      have hs1 : (done ++ [p]).Pairwise ptLT := by
        refine List.Pairwise.sublist ?_ hsorted
        refine List.Sublist.append (List.Sublist.refl done) ?_
        simp
      have h1 := chainStep_inv hs1 hinv
      have h2 : ((done ++ [p]) ++ todo').Pairwise ptLT := by
        rw [List.append_assoc]
        simpa using hsorted
      have h3 := chainFold_inv todo' (done ++ [p]) (chainStep acc p) h1 h2
      rw [List.append_assoc] at h3
      simpa [List.foldl_cons] using h3

/-- The chain invariant holds of the finished fold over any nonempty sorted
point list. -/
theorem chainFold_spec {pts : List Pt} (hne : pts ≠ [])
    (hsorted : pts.Pairwise ptLT) : ChainInv pts (chainFold pts) := by
  cases pts with
  | nil => exact absurd rfl hne
  | cons x rest =>
      have hbase : ChainInv [x] [x] :=
        ⟨by simp, by simp, by simp, by simp, trivial, fun q _ => trivial⟩
      have h := chainFold_inv rest [x] [x] hbase (by simpa using hsorted)
      simpa [chainFold, chainStep, popWhile] using h

/-! ## The upper chain via central symmetry -/

/-- Point negation: a central symmetry, which reverses the lexicographic
order and preserves orientation. -/
def negPt (a : Pt) : Pt := (-a.1, -a.2)

theorem cross_negPt (o a b : Pt) :
    cross (negPt o) (negPt a) (negPt b) = cross o a b := by
  unfold cross negPt
  simp
  ring

theorem ptLT_negPt {a b : Pt} : ptLT (negPt a) (negPt b) ↔ ptLT b a := by
  unfold ptLT negPt
  simp
  omega

theorem negPt_negPt (a : Pt) : negPt (negPt a) = a := by
  unfold negPt
  simp

theorem popWhile_negPt (p : Pt) : ∀ l : List Pt,
    popWhile (negPt p) (l.map negPt) = (popWhile p l).map negPt
  | [] => rfl
  | [x] => rfl
  | b :: a :: rest => by
      by_cases h : cross a b p ≤ 0
      · have h' : cross (negPt a) (negPt b) (negPt p) ≤ 0 := by
          rw [cross_negPt]; exact h
        simp only [List.map_cons, popWhile, if_pos h, if_pos h']
        exact popWhile_negPt p (a :: rest)
      · have h' : ¬ cross (negPt a) (negPt b) (negPt p) ≤ 0 := by
          rw [cross_negPt]; exact h
        simp only [List.map_cons, popWhile, if_neg h, if_neg h']

theorem chainStep_negPt (acc : List Pt) (p : Pt) :
    chainStep (acc.map negPt) (negPt p) = (chainStep acc p).map negPt := by
  unfold chainStep
  rw [popWhile_negPt]
  rfl

theorem chainFold_negPt (l : List Pt) :
    chainFold (l.map negPt) = (chainFold l).map negPt := by
  unfold chainFold
  have h : ∀ (t : List Pt) (acc : List Pt),
      (t.map negPt).foldl chainStep (acc.map negPt)
        = (t.foldl chainStep acc).map negPt := by
    intro t
    induction t with
    | nil => intro acc; rfl
    | cons p t ih =>
        intro acc
        simp only [List.map_cons, List.foldl_cons]
        rw [chainStep_negPt]
        exact ih (chainStep acc p)
  simpa using h l []

theorem revAbove_negPt (q : Pt) : ∀ l : List Pt,
    RevAbove (negPt q) (l.map negPt) ↔ RevAbove q l
  | [] => Iff.rfl
  | [x] => Iff.rfl
  | y :: x :: rest => by
      show 0 ≤ cross (negPt x) (negPt y) (negPt q)
          ∧ RevAbove (negPt q) ((x :: rest).map negPt)
        ↔ 0 ≤ cross x y q ∧ RevAbove q (x :: rest)
      rw [cross_negPt, revAbove_negPt q (x :: rest)]

theorem revLeft_negPt : ∀ l : List Pt, RevLeft (l.map negPt) ↔ RevLeft l
  | [] => Iff.rfl
  | [x] => Iff.rfl
  | [x, y] => Iff.rfl
  | z :: y :: x :: rest => by
      show 0 < cross (negPt x) (negPt y) (negPt z)
          ∧ RevLeft ((y :: x :: rest).map negPt)
        ↔ 0 < cross x y z ∧ RevLeft (y :: x :: rest)
      rw [cross_negPt, revLeft_negPt (y :: x :: rest)]

theorem negPt_injective : Function.Injective negPt := by
  intro a b h
  unfold negPt at h
  have h1 : -a.1 = -b.1 := congrArg Prod.fst h
  have h2 : -a.2 = -b.2 := congrArg Prod.snd h
  exact Prod.ext (by omega) (by omega)

theorem getLast?_map_negPt (l : List Pt) :
    (l.map negPt).getLast? = l.getLast?.map negPt := by
  rw [← List.head?_reverse, ← List.map_reverse, List.head?_map,
    List.head?_reverse]

/-- The facts needed downstream about the finished lower chain. -/
theorem lower_chain_facts {pts : List Pt} (hne : pts ≠ [])
    (hsorted : pts.Pairwise ptLT) :
    chainFold pts ≠ []
    ∧ (chainFold pts).head? = pts.getLast?
    ∧ (chainFold pts).getLast? = pts.head?
    ∧ (∀ x ∈ chainFold pts, x ∈ pts)
    ∧ (chainFold pts).Pairwise (fun x y => ptLT y x)
    ∧ RevLeft (chainFold pts)
    ∧ (∀ q ∈ pts, RevAbove q (chainFold pts)) := by
  have h := chainFold_spec hne hsorted
  exact ⟨h.ne, h.head_eq, h.last_eq, fun x hx => h.mem_done hx,
    h.pair hsorted, h.turns, h.above⟩

/-- The same facts about the upper chain, obtained by applying the invariant
to the centrally-reflected reversed points. -/
theorem upper_chain_facts {pts : List Pt} (hne : pts ≠ [])
    (hsorted : pts.Pairwise ptLT) :
    chainFold pts.reverse ≠ []
    ∧ (chainFold pts.reverse).head? = pts.head?
    ∧ (chainFold pts.reverse).getLast? = pts.getLast?
    ∧ (∀ x ∈ chainFold pts.reverse, x ∈ pts)
    ∧ (chainFold pts.reverse).Pairwise ptLT
    ∧ RevLeft (chainFold pts.reverse)
    ∧ (∀ q ∈ pts, RevAbove q (chainFold pts.reverse)) := by
  have hneN : pts.reverse.map negPt ≠ [] := by
    simp only [ne_eq, List.map_eq_nil_iff, List.reverse_eq_nil_iff]
    exact hne
  have hsortedN : (pts.reverse.map negPt).Pairwise ptLT := by
    rw [List.pairwise_map, List.pairwise_reverse]
    exact hsorted.imp (fun h => ptLT_negPt.mpr h)
  have hspec := chainFold_spec hneN hsortedN
  have hfold : chainFold (pts.reverse.map negPt)
      = (chainFold pts.reverse).map negPt := chainFold_negPt pts.reverse
  refine ⟨?_, ?_, ?_, ?_, ?_, ?_, ?_⟩
  · have h := hspec.ne
    rw [hfold] at h
    simpa using h
  · have h := hspec.head_eq
    rw [hfold, List.head?_map, getLast?_map_negPt, List.getLast?_reverse] at h
    exact Option.map_injective negPt_injective h
  · have h := hspec.last_eq
    rw [hfold, getLast?_map_negPt, List.head?_map, List.head?_reverse] at h
    exact Option.map_injective negPt_injective h
  · intro x hx
    have hx' : negPt x ∈ chainFold (pts.reverse.map negPt) := by
      rw [hfold]
      exact List.mem_map_of_mem negPt hx
    have h := hspec.mem_done hx'
    rw [List.mem_map] at h
    obtain ⟨y, hy, hyx⟩ := h
    have : y = x := negPt_injective hyx
    subst this
    exact List.mem_reverse.mp hy
  · have h := hspec.pair hsortedN
    rw [hfold, List.pairwise_map] at h
    exact h.imp (fun hab => ptLT_negPt.mp hab)
  · have h := hspec.turns
    rw [hfold] at h
    exact (revLeft_negPt _).mp h
  · intro q hq
    have hq' : negPt q ∈ pts.reverse.map negPt :=
      List.mem_map_of_mem negPt (List.mem_reverse.mpr hq)
    have h := hspec.above (negPt q) hq'
    rw [hfold] at h
    exact (revAbove_negPt q _).mp h

/-! ## Forward edge/triple predicates on rings -/

/-- `q` lies on or left of every consecutive edge of the list (the cyclic
containment test when applied to a closed ring). -/
def AboveF (q : Pt) : List Pt → Prop
  | x :: y :: rest => 0 ≤ cross x y q ∧ AboveF q (y :: rest)
  | _ => True

instance instDecAboveF (q : Pt) : ∀ l : List Pt, Decidable (AboveF q l)
  | [] => isTrue trivial
  | [_] => isTrue trivial
  | x :: y :: rest =>
      haveI : Decidable (AboveF q (y :: rest)) := instDecAboveF q (y :: rest)
      inferInstanceAs (Decidable (0 ≤ cross x y q ∧ AboveF q (y :: rest)))

/-- Every consecutive triple of the list turns strictly left (the cyclic
convexity test when applied to a ring closed with the first two points). -/
def TriplesOK : List Pt → Prop
  | x :: y :: z :: rest => 0 < cross x y z ∧ TriplesOK (y :: z :: rest)
  | _ => True

instance instDecTriplesOK : ∀ l : List Pt, Decidable (TriplesOK l)
  | [] => isTrue trivial
  | [_] => isTrue trivial
  | [_, _] => isTrue trivial
  | x :: y :: z :: rest =>
      haveI : Decidable (TriplesOK (y :: z :: rest)) :=
        instDecTriplesOK (y :: z :: rest)
      inferInstanceAs (Decidable (0 < cross x y z ∧ TriplesOK (y :: z :: rest)))

theorem aboveF_append_last {q x y : Pt} (h2 : 0 ≤ cross x y q) :
    ∀ l, AboveF q (l ++ [x]) → AboveF q (l ++ [x, y])
  | [], _ => ⟨h2, trivial⟩
  | [a], h => ⟨h.1, h2, trivial⟩
  | a :: b :: l, h => ⟨h.1, aboveF_append_last h2 (b :: l) h.2⟩

theorem revAbove_to_aboveF {q : Pt} : ∀ l, RevAbove q l → AboveF q l.reverse
  | [], _ => trivial
  | [x], _ => by simp [AboveF]
  | y :: x :: rest, h => by
      have ih := revAbove_to_aboveF (x :: rest) h.2
      have e1 : (y :: x :: rest).reverse = rest.reverse ++ [x, y] := by simp
      have e2 : (x :: rest).reverse = rest.reverse ++ [x] := by simp
      rw [e2] at ih
      rw [e1]
      exact aboveF_append_last h.1 rest.reverse ih

theorem aboveF_glue {q : Pt} : ∀ (xs : List Pt) (j : Pt) (ys : List Pt),
    AboveF q (xs ++ [j]) → AboveF q (j :: ys) → AboveF q (xs ++ j :: ys)
  | [], _, _, _, h2 => h2
  | [a], _, _, h1, h2 => ⟨h1.1, h2⟩
  | a :: b :: xs, j, ys, h1, h2 => ⟨h1.1, aboveF_glue (b :: xs) j ys h1.2 h2⟩

theorem triplesOK_append_last {x y z : Pt} (hz : 0 < cross x y z) :
    ∀ l, TriplesOK (l ++ [x, y]) → TriplesOK (l ++ [x, y, z])
  | [], _ => ⟨hz, trivial⟩
  | [a], h => ⟨h.1, hz, trivial⟩
  | [a, b], h => ⟨h.1, triplesOK_append_last hz [b] h.2⟩
  | a :: b :: c :: l, h => ⟨h.1, triplesOK_append_last hz (b :: c :: l) h.2⟩

theorem revLeft_to_triples : ∀ l, RevLeft l → TriplesOK l.reverse
  | [], _ => trivial
  | [x], _ => by simp [TriplesOK]
  | [x, y], _ => by
      have e : ([x, y] : List Pt).reverse = [y, x] := by simp
      rw [e]
      trivial
  | z :: y :: x :: rest, h => by
      have ih := revLeft_to_triples (y :: x :: rest) h.2
      have e1 : (z :: y :: x :: rest).reverse = rest.reverse ++ [x, y, z] := by
        simp
      have e2 : (y :: x :: rest).reverse = rest.reverse ++ [x, y] := by simp
      rw [e2] at ih
      rw [e1]
      exact triplesOK_append_last h.1 rest.reverse ih

theorem triplesOK_glue (ja jb : Pt) (ys : List Pt)
    (h2 : TriplesOK (ja :: jb :: ys)) :
    ∀ xs, TriplesOK (xs ++ [ja, jb]) → TriplesOK (xs ++ ja :: jb :: ys)
  | [], _ => h2
  | [a], h1 => ⟨h1.1, h2⟩
  | [a, b], h1 => ⟨h1.1, triplesOK_glue ja jb ys h2 [b] h1.2⟩
  | a :: b :: c :: xs, h1 =>
      ⟨h1.1, triplesOK_glue ja jb ys h2 (b :: c :: xs) h1.2⟩

/-! ## Containment: every input point is on or inside the hull ring -/

theorem convex_hull_eq_of_lt3 {points : List Pt}
    (h : (sortedDedup points).length < 3) :
    convex_hull points = sortedDedup points := by
  show (if (sortedDedup points).length < 3 then sortedDedup points
      else (chainFold (sortedDedup points)).reverse.dropLast
        ++ (chainFold (sortedDedup points).reverse).reverse.dropLast) = _
  rw [if_pos h]

theorem convex_hull_eq_of_ge3 {points : List Pt}
    (h : ¬ (sortedDedup points).length < 3) :
    convex_hull points
      = (chainFold (sortedDedup points)).reverse.dropLast
        ++ (chainFold (sortedDedup points).reverse).reverse.dropLast := by
  show (if (sortedDedup points).length < 3 then sortedDedup points
      else (chainFold (sortedDedup points)).reverse.dropLast
        ++ (chainFold (sortedDedup points).reverse).reverse.dropLast) = _
  rw [if_neg h]

theorem ptLT_irrefl (a : Pt) : ¬ ptLT a a := by unfold ptLT; omega

theorem head_ne_getLast {l : List Pt} (hp : l.Pairwise ptLT)
    (hlen : 2 ≤ l.length) {a b : Pt} (ha : l.head? = some a)
    (hb : l.getLast? = some b) : a ≠ b := by
  cases l with
  | nil => simp at ha
  | cons x t =>
      cases t with
      | nil => simp at hlen
      | cons y t' =>
          have hax : x = a := by simpa using ha
          have hb' : (y :: t').getLast? = some b := by
            simpa [List.getLast?_cons_cons] using hb
          have hbmem : b ∈ y :: t' :=
            List.mem_of_mem_getLast? (by simp [hb'])
          have hlt : ptLT x b := (List.pairwise_cons.mp hp).1 b hbmem
          intro hab
          have hbx : b = x := by rw [← hab, ← hax]
          rw [hbx] at hlt
          exact ptLT_irrefl x hlt

/-- Core containment: every member of the input list is on or left of every
cyclic edge of the closed hull ring. -/
theorem hull_ring_above {points : List Pt} {q : Pt} (hq : q ∈ points) :
    AboveF q (convex_hull points ++ (convex_hull points).take 1) := by
  by_cases hlen : (sortedDedup points).length < 3
  · rw [convex_hull_eq_of_lt3 hlen]
    have hq' : q ∈ sortedDedup points := mem_sortedDedup.mpr hq
    set sd := sortedDedup points with hsddef
    clear_value sd
    rcases sd with _ | ⟨a, _ | ⟨b, _ | ⟨c, t⟩⟩⟩
    · simp at hq'
    · exact ⟨le_of_eq (cross_first_two a q).symm, trivial⟩
    · show AboveF q [a, b, a]
      have hq2 : q = a ∨ q = b := by simpa using hq'
      rcases hq2 with h | h
      · refine ⟨?_, ?_, trivial⟩
        · rw [h]
          exact le_of_eq (cross_back_to_base a b).symm
        · rw [h]
          exact le_of_eq (cross_same_last b a).symm
      · refine ⟨?_, ?_, trivial⟩
        · rw [h]
          exact le_of_eq (cross_same_last a b).symm
        · rw [h]
          exact le_of_eq (cross_back_to_base b a).symm
    · exfalso
      simp only [List.length_cons] at hlen
      omega
  · rw [convex_hull_eq_of_ge3 hlen]
    have hsorted : (sortedDedup points).Pairwise ptLT :=
      sortedDedup_pairwise_lt points
    have hq' : q ∈ sortedDedup points := mem_sortedDedup.mpr hq
    have hlen2 : 2 ≤ (sortedDedup points).length := by omega
    have hne : sortedDedup points ≠ [] := by
      intro h
      rw [h] at hlen2
      simp at hlen2
    obtain ⟨hne1, hhead1, hlast1, hmem1, hpair1, hleft1, habove1⟩ :=
      lower_chain_facts hne hsorted
    obtain ⟨hne2, hhead2, hlast2, hmem2, hpair2, hleft2, habove2⟩ :=
      upper_chain_facts hne hsorted
    obtain ⟨c1, t1, hr1⟩ : ∃ c t, chainFold (sortedDedup points) = c :: t := by
      rcases h : chainFold (sortedDedup points) with _ | ⟨c, t⟩
      · exact absurd h hne1
      · exact ⟨c, t, rfl⟩
    obtain ⟨c2, t2, hr2⟩ :
        ∃ c t, chainFold (sortedDedup points).reverse = c :: t := by
      rcases h : chainFold (sortedDedup points).reverse with _ | ⟨c, t⟩
      · exact absurd h hne2
      · exact ⟨c, t, rfl⟩
    have hM : (sortedDedup points).getLast? = some c1 := by
      rw [← hhead1, hr1]
      rfl
    have hm : (sortedDedup points).head? = some c2 := by
      rw [← hhead2, hr2]
      rfl
    have hmM : c2 ≠ c1 := head_ne_getLast hsorted hlen2 hm hM
    have hL : (chainFold (sortedDedup points)).reverse = t1.reverse ++ [c1] := by
      rw [hr1]
      simp
    have hU : (chainFold (sortedDedup points).reverse).reverse
        = t2.reverse ++ [c2] := by
      rw [hr2]
      simp
    have hLhead : (chainFold (sortedDedup points)).reverse.head? = some c2 := by
      rw [List.head?_reverse, hlast1, hm]
    have hUhead : (chainFold (sortedDedup points).reverse).reverse.head?
        = some c1 := by
      rw [List.head?_reverse, hlast2, hM]
    have ht1ne : t1.reverse ≠ [] := by
      intro h
      rw [hL, h, List.nil_append] at hLhead
      have : c1 = c2 := by simpa using hLhead
      exact hmM this.symm
    have ht2ne : t2.reverse ≠ [] := by
      intro h
      rw [hU, h, List.nil_append] at hUhead
      have : c2 = c1 := by simpa using hUhead
      exact hmM this
    obtain ⟨l', ht1eq⟩ : ∃ l', t1.reverse = c2 :: l' := by
      rcases h : t1.reverse with _ | ⟨x, l'⟩
      · exact absurd h ht1ne
      · rw [hL, List.head?_append_of_ne_nil _ ht1ne, h] at hLhead
        have : x = c2 := by simpa using hLhead
        subst this
        exact ⟨l', rfl⟩
    obtain ⟨u', ht2eq⟩ : ∃ u', t2.reverse = c1 :: u' := by
      rcases h : t2.reverse with _ | ⟨x, u'⟩
      · exact absurd h ht2ne
      · rw [hU, List.head?_append_of_ne_nil _ ht2ne, h] at hUhead
        have : x = c1 := by simpa using hUhead
        subst this
        exact ⟨u', rfl⟩
    have hdrop1 : (chainFold (sortedDedup points)).reverse.dropLast
        = t1.reverse := by
      rw [hL, List.dropLast_concat]
    have hdrop2 : (chainFold (sortedDedup points).reverse).reverse.dropLast
        = t2.reverse := by
      rw [hU, List.dropLast_concat]
    rw [hdrop1, hdrop2, ht1eq, ht2eq]
    have htake : ((c2 :: l') ++ c1 :: u').take 1 = [c2] := rfl
    rw [htake, List.append_assoc]
    have hAq : AboveF q ((c2 :: l') ++ [c1]) := by
      have h := revAbove_to_aboveF _ (habove1 q hq')
      rw [hL, ht1eq] at h
      exact h
    have hUq : AboveF q (c1 :: (u' ++ [c2])) := by
      have h := revAbove_to_aboveF _ (habove2 q hq')
      rw [hU, ht2eq] at h
      exact h
    exact aboveF_glue (c2 :: l') c1 (u' ++ [c2]) hAq hUq

/-! ## Subset and invariance of the hull -/

theorem convex_hull_subset {points : List Pt} {x : Pt}
    (hx : x ∈ convex_hull points) : x ∈ points := by
  by_cases hlen : (sortedDedup points).length < 3
  · rw [convex_hull_eq_of_lt3 hlen] at hx
    exact mem_sortedDedup.mp hx
  · rw [convex_hull_eq_of_ge3 hlen] at hx
    have hsorted := sortedDedup_pairwise_lt points
    have hne : sortedDedup points ≠ [] := by
      intro h
      rw [h] at hlen
      simp at hlen
    obtain ⟨hne1, _, _, hmem1, _, _, _⟩ := lower_chain_facts hne hsorted
    obtain ⟨hne2, _, _, hmem2, _, _, _⟩ := upper_chain_facts hne hsorted
    rcases List.mem_append.mp hx with h | h
    · have hx2 := (List.dropLast_sublist _).subset h
      exact mem_sortedDedup.mp (hmem1 x (by simpa using hx2))
    · have hx2 := (List.dropLast_sublist _).subset h
      exact mem_sortedDedup.mp (hmem2 x (by simpa using hx2))

theorem convex_hull_congr {l l' : List Pt}
    (h : sortedDedup l = sortedDedup l') :
    convex_hull l = convex_hull l' := by
  show (if (sortedDedup l).length < 3 then sortedDedup l
      else (chainFold (sortedDedup l)).reverse.dropLast
        ++ (chainFold (sortedDedup l).reverse).reverse.dropLast)
    = (if (sortedDedup l').length < 3 then sortedDedup l'
      else (chainFold (sortedDedup l')).reverse.dropLast
        ++ (chainFold (sortedDedup l').reverse).reverse.dropLast)
  rw [h]

/-! ## Collinearity transfer for the junction argument -/

/-- Cross product of two displacement vectors. -/
def vcross (u v : Pt) : Int := u.1 * v.2 - u.2 * v.1

theorem cross_eq_vcross (o a b : Pt) :
    cross o a b = vcross (a.1 - o.1, a.2 - o.2) (b.1 - o.1, b.2 - o.2) := by
  unfold cross vcross
  simp

theorem vcross_cancel {u v w : Pt} (hu : ¬ (u.1 = 0 ∧ u.2 = 0))
    (h1 : vcross u v = 0) (h2 : vcross u w = 0) : vcross v w = 0 := by
  have k1 : u.1 * vcross v w = v.1 * vcross u w - w.1 * vcross u v := by
    unfold vcross
    ring
  have k2 : u.2 * vcross v w = v.2 * vcross u w - w.2 * vcross u v := by
    unfold vcross
    ring
  rw [h1, h2] at k1 k2
  simp only [mul_zero, sub_zero] at k1 k2
  rcases not_and_or.mp hu with h | h
  · rcases mul_eq_zero.mp k1 with h' | h'
    · exact absurd h' h
    · exact h'
  · rcases mul_eq_zero.mp k2 with h' | h'
    · exact absurd h' h
    · exact h'

/-- If every point of a set lies on the line through two distinct points `x`
and `M`, then every triple from the set is collinear. -/
theorem collinear_of_line {x M : Pt} (hne : ¬ (M.1 - x.1 = 0 ∧ M.2 - x.2 = 0))
    {a b c : Pt} (ha : cross x M a = 0) (hb : cross x M b = 0)
    (hc : cross x M c = 0) : cross a b c = 0 := by
  set u : Pt := (M.1 - x.1, M.2 - x.2) with hu
  have ha' : vcross u (a.1 - x.1, a.2 - x.2) = 0 := by
    rw [← cross_eq_vcross]
    exact ha
  have hb' : vcross u (b.1 - x.1, b.2 - x.2) = 0 := by
    rw [← cross_eq_vcross]
    exact hb
  have hc' : vcross u (c.1 - x.1, c.2 - x.2) = 0 := by
    rw [← cross_eq_vcross]
    exact hc
  have hab : vcross u (b.1 - a.1, b.2 - a.2) = 0 := by
    have : vcross u (b.1 - a.1, b.2 - a.2)
        = vcross u (b.1 - x.1, b.2 - x.2) - vcross u (a.1 - x.1, a.2 - x.2) := by
      unfold vcross
      simp
      ring
    rw [this, ha', hb']
    simp
  have hac : vcross u (c.1 - a.1, c.2 - a.2) = 0 := by
    have : vcross u (c.1 - a.1, c.2 - a.2)
        = vcross u (c.1 - x.1, c.2 - x.2) - vcross u (a.1 - x.1, a.2 - x.2) := by
      unfold vcross
      simp
      ring
    rw [this, ha', hc']
    simp
  have hfin : vcross (b.1 - a.1, b.2 - a.2) (c.1 - a.1, c.2 - a.2) = 0 :=
    vcross_cancel (by simpa [hu] using hne) hab hac
  rw [cross_eq_vcross]
  exact hfin

/-- The junction of the lower chain's last edge and the upper chain's first
edge turns strictly left unless the whole point set is collinear. -/
theorem junction_strict {pts : List Pt} {x M y : Pt}
    (hxM : ptLT x M) (hyM : ptLT y M)
    (hlower : ∀ q ∈ pts, 0 ≤ cross x M q)
    (hupper : ∀ q ∈ pts, 0 ≤ cross M y q)
    (hy : y ∈ pts)
    (hnc : ¬ ∀ a ∈ pts, ∀ b ∈ pts, ∀ c ∈ pts, cross a b c = 0) :
    0 < cross x M y := by
  rcases lt_or_eq_of_le (hlower y hy) with h | h
  · exact h
  exfalso
  have hK : cross x M y = 0 := h.symm
  -- the two x-difference identities tied by the vanishing cross product
  have hline : ∀ q ∈ pts, cross x M q = 0 := by
    intro q hq
    have id1 : (y.1 - M.1) * cross x M q
        = (M.1 - x.1) * cross M y q + (q.1 - M.1) * cross x M y := by
      unfold cross
      ring
    have id2 : (y.2 - M.2) * cross x M q
        = (M.2 - x.2) * cross M y q + (q.2 - M.2) * cross x M y := by
      unfold cross
      ring
    rw [hK, mul_zero, add_zero] at id1 id2
    have hyx : y.1 ≤ M.1 := ptLT_x hyM
    have hxx : x.1 ≤ M.1 := ptLT_x hxM
    rcases lt_or_eq_of_le hyx with hylt | hyeq
    · -- y.1 < M.1: the left side of id1 is ≤ 0, the right side ≥ 0
      have hle : (y.1 - M.1) * cross x M q ≤ 0 :=
        mul_nonpos_of_nonpos_of_nonneg (by omega) (hlower q hq)
      have hge : 0 ≤ (M.1 - x.1) * cross M y q :=
        mul_nonneg (by omega) (hupper q hq)
      have hz : (y.1 - M.1) * cross x M q = 0 := by omega
      rcases mul_eq_zero.mp hz with h' | h'
      · omega
      · exact h'
    · -- y.1 = M.1, so y.2 < M.2; the vanishing vcross forces x.1 = M.1 too
      have hy2 : y.2 < M.2 := by
        rcases hyM with h' | ⟨_, h'⟩
        · omega
        · exact h'
      have hvw : (M.1 - x.1) * (y.2 - M.2) = 0 := by
        have e : cross x M y
            = (M.1 - x.1) * (y.2 - M.2) - (M.2 - x.2) * (y.1 - M.1) := by
          unfold cross
          ring
        rw [e] at hK
        have hB : (M.2 - x.2) * (y.1 - M.1) = 0 := by
          rw [hyeq]
          ring
        omega
      have hx1 : M.1 - x.1 = 0 := by
        rcases mul_eq_zero.mp hvw with h' | h'
        · exact h'
        · omega
      have hx2 : x.2 < M.2 := by
        rcases hxM with h' | ⟨_, h'⟩
        · omega
        · exact h'
      have hle : (y.2 - M.2) * cross x M q ≤ 0 :=
        mul_nonpos_of_nonpos_of_nonneg (by omega) (hlower q hq)
      have hge : 0 ≤ (M.2 - x.2) * cross M y q :=
        mul_nonneg (by omega) (hupper q hq)
      have hz : (y.2 - M.2) * cross x M q = 0 := by omega
      rcases mul_eq_zero.mp hz with h' | h'
      · omega
      · exact h'
  -- all points on one line: contradiction with non-collinearity
  apply hnc
  intro a ha b hb c hc
  have hnexM : ¬ (M.1 - x.1 = 0 ∧ M.2 - x.2 = 0) := by
    rcases hxM with h' | ⟨h1, h2⟩
    · intro hcon
      omega
    · intro hcon
      omega
  exact collinear_of_line hnexM (hline a ha) (hline b hb) (hline c hc)

theorem cross_swap12 (a b q : Pt) : cross a b q = -cross b a q := by
  unfold cross
  ring

theorem revAbove_last_edge {q : Pt} : ∀ (l : List Pt) (y x : Pt),
    RevAbove q (l ++ [y, x]) → 0 ≤ cross x y q
  | [], y, x, h => h.1
  | [a], y, x, h => h.2.1
  | a :: b :: l, y, x, h => revAbove_last_edge (b :: l) y x h.2

theorem exists_last_two {l : List Pt} (h : 2 ≤ l.length) :
    ∃ l' y x, l = l' ++ [y, x] := by
  rcases hr : l.reverse with _ | ⟨x, _ | ⟨y, t⟩⟩
  · exfalso
    have : l = [] := by
      have h2 := congrArg List.reverse hr
      simpa using h2
    rw [this] at h
    simp at h
  · exfalso
    have : l = [x] := by
      have h2 := congrArg List.reverse hr
      simpa using h2
    rw [this] at h
    simp at h
  · refine ⟨t.reverse, y, x, ?_⟩
    have h2 := congrArg List.reverse hr
    simpa using h2

theorem hull_convex {points : List Pt}
    (hlen : ¬ (sortedDedup points).length < 3)
    (hnc : ¬ ∀ a ∈ points, ∀ b ∈ points, ∀ c ∈ points, cross a b c = 0) :
    TriplesOK (convex_hull points ++ (convex_hull points).take 2)
    ∧ 3 ≤ (convex_hull points).length := by
  have hnc' : ¬ ∀ a ∈ sortedDedup points, ∀ b ∈ sortedDedup points,
      ∀ c ∈ sortedDedup points, cross a b c = 0 := by
    intro h
    exact hnc (fun a ha b hb c hc =>
      h a (mem_sortedDedup.mpr ha) b (mem_sortedDedup.mpr hb)
        c (mem_sortedDedup.mpr hc))
  rw [convex_hull_eq_of_ge3 hlen]
  have hsorted : (sortedDedup points).Pairwise ptLT :=
    sortedDedup_pairwise_lt points
  have hlen2 : 2 ≤ (sortedDedup points).length := by omega
  have hne : sortedDedup points ≠ [] := by
    intro h
    rw [h] at hlen2
    simp at hlen2
  obtain ⟨hne1, hhead1, hlast1, hmem1, hpair1, hleft1, habove1⟩ :=
    lower_chain_facts hne hsorted
  obtain ⟨hne2, hhead2, hlast2, hmem2, hpair2, hleft2, habove2⟩ :=
    upper_chain_facts hne hsorted
  obtain ⟨c1, t1, hr1⟩ : ∃ c t, chainFold (sortedDedup points) = c :: t := by
    rcases h : chainFold (sortedDedup points) with _ | ⟨c, t⟩
    · exact absurd h hne1
    · exact ⟨c, t, rfl⟩
  obtain ⟨c2, t2, hr2⟩ :
      ∃ c t, chainFold (sortedDedup points).reverse = c :: t := by
    rcases h : chainFold (sortedDedup points).reverse with _ | ⟨c, t⟩
    · exact absurd h hne2
    · exact ⟨c, t, rfl⟩
  have hM : (sortedDedup points).getLast? = some c1 := by
    rw [← hhead1, hr1]
    rfl
  have hm : (sortedDedup points).head? = some c2 := by
    rw [← hhead2, hr2]
    rfl
  have hmM : c2 ≠ c1 := head_ne_getLast hsorted hlen2 hm hM
  have hL : (chainFold (sortedDedup points)).reverse = t1.reverse ++ [c1] := by
    rw [hr1]
    simp
  have hU : (chainFold (sortedDedup points).reverse).reverse
      = t2.reverse ++ [c2] := by
    rw [hr2]
    simp
  have hLhead : (chainFold (sortedDedup points)).reverse.head? = some c2 := by
    rw [List.head?_reverse, hlast1, hm]
  have hUhead : (chainFold (sortedDedup points).reverse).reverse.head?
      = some c1 := by
    rw [List.head?_reverse, hlast2, hM]
  have ht1ne : t1.reverse ≠ [] := by
    intro h
    rw [hL, h, List.nil_append] at hLhead
    have : c1 = c2 := by simpa using hLhead
    exact hmM this.symm
  have ht2ne : t2.reverse ≠ [] := by
    intro h
    rw [hU, h, List.nil_append] at hUhead
    have : c2 = c1 := by simpa using hUhead
    exact hmM this
  obtain ⟨l', ht1eq⟩ : ∃ l', t1.reverse = c2 :: l' := by
    rcases h : t1.reverse with _ | ⟨x, l'⟩
    · exact absurd h ht1ne
    · rw [hL, List.head?_append_of_ne_nil _ ht1ne, h] at hLhead
      have : x = c2 := by simpa using hLhead
      subst this
      exact ⟨l', rfl⟩
  have hdrop1 : (chainFold (sortedDedup points)).reverse.dropLast
      = t1.reverse := by
    rw [hL, List.dropLast_concat]
  have hdrop2 : (chainFold (sortedDedup points).reverse).reverse.dropLast
      = t2.reverse := by
    rw [hU, List.dropLast_concat]
  have ht1ne' : t1 ≠ [] := by
    intro h
    exact ht1ne (by rw [h]; rfl)
  have ht2ne' : t2 ≠ [] := by
    intro h
    exact ht2ne (by rw [h]; rfl)
  obtain ⟨e, t1', het1⟩ : ∃ e t1', t1 = e :: t1' := by
    rcases h : t1 with _ | ⟨e, t1'⟩
    · exact absurd h ht1ne'
    · exact ⟨e, t1', rfl⟩
  obtain ⟨g, t2', het2⟩ : ∃ g t2', t2 = g :: t2' := by
    rcases h : t2 with _ | ⟨g, t2'⟩
    · exact absurd h ht2ne'
    · exact ⟨g, t2', rfl⟩
  obtain ⟨l1, y1, x1, hdec1⟩ :=
    exists_last_two (show 2 ≤ (chainFold (sortedDedup points)).length by
      rw [hr1, het1]
      exact Nat.le_add_left 2 t1'.length)
  obtain ⟨l2, y2, x2, hdec2⟩ :=
    exists_last_two (show 2 ≤ (chainFold (sortedDedup points).reverse).length by
      rw [hr2, het2]
      exact Nat.le_add_left 2 t2'.length)
  have hx1 : x1 = c2 := by
    have hg : (chainFold (sortedDedup points)).getLast? = some x1 := by
      rw [hdec1, List.getLast?_append_of_ne_nil l1 (by simp)]
      rfl
    rw [hlast1, hm] at hg
    exact (Option.some.inj hg).symm
  rw [hx1] at hdec1
  have hx2 : x2 = c1 := by
    have hg : (chainFold (sortedDedup points).reverse).getLast? = some x2 := by
      rw [hdec2, List.getLast?_append_of_ne_nil l2 (by simp)]
      rfl
    rw [hlast2, hM] at hg
    exact (Option.some.inj hg).symm
  rw [hx2] at hdec2
  have hrev1a : (chainFold (sortedDedup points)).reverse
      = c2 :: (l' ++ [c1]) := by
    rw [hr1]
    simp [ht1eq]
  have hrev1b : (chainFold (sortedDedup points)).reverse
      = c2 :: y1 :: l1.reverse := by
    rw [hdec1]
    simp
  have hlink : l' ++ [c1] = y1 :: l1.reverse := by
    have h := hrev1a.symm.trans hrev1b
    injection h
  have hrev1c : (chainFold (sortedDedup points)).reverse
      = t1'.reverse ++ [e, c1] := by
    rw [hr1, het1]
    simp
  have hrev2b : (chainFold (sortedDedup points).reverse).reverse
      = c1 :: y2 :: l2.reverse := by
    rw [hdec2]
    simp
  have hrev2c : (chainFold (sortedDedup points).reverse).reverse
      = t2'.reverse ++ [g, c2] := by
    rw [hr2, het2]
    simp
  have hy2mem : y2 ∈ sortedDedup points := by
    apply hmem2
    rw [hdec2]
    simp
  have hy1mem : y1 ∈ sortedDedup points := by
    apply hmem1
    rw [hdec1]
    simp
  have hJ1 : 0 < cross e c1 y2 := by
    refine junction_strict ?_ ?_ ?_ ?_ ?_ hnc'
    · have hp := hpair1
      rw [hr1, het1] at hp
      exact (List.pairwise_cons.mp hp).1 e (by simp)
    · have hp := hpair2
      rw [hdec2] at hp
      have hp2 := hp.sublist (List.sublist_append_right l2 [y2, c1])
      exact (List.pairwise_cons.mp hp2).1 c1 (by simp)
    · intro p hp
      have ha := habove1 p hp
      rw [hr1, het1] at ha
      exact ha.1
    · intro p hp
      have hb := habove2 p hp
      rw [hdec2] at hb
      exact revAbove_last_edge l2 y2 c1 hb
    · exact hy2mem
  have hnc2 : ¬ ∀ a ∈ (sortedDedup points).map negPt,
      ∀ b ∈ (sortedDedup points).map negPt,
      ∀ c ∈ (sortedDedup points).map negPt, cross a b c = 0 := by
    intro h
    apply hnc'
    intro a ha b hb c hc
    have h2 := h (negPt a) (List.mem_map.mpr ⟨a, ha, rfl⟩)
      (negPt b) (List.mem_map.mpr ⟨b, hb, rfl⟩)
      (negPt c) (List.mem_map.mpr ⟨c, hc, rfl⟩)
    rw [cross_negPt] at h2
    exact h2
  have hJ2 : 0 < cross g c2 y1 := by
    have key : 0 < cross (negPt g) (negPt c2) (negPt y1) := by
      refine junction_strict ?_ ?_ ?_ ?_ ?_ hnc2
      · refine ptLT_negPt.mpr ?_
        have hp := hpair2
        rw [hr2, het2] at hp
        exact (List.pairwise_cons.mp hp).1 g (by simp)
      · refine ptLT_negPt.mpr ?_
        have hp := hpair1
        rw [hdec1] at hp
        have hp2 := hp.sublist (List.sublist_append_right l1 [y1, c2])
        exact (List.pairwise_cons.mp hp2).1 c2 (by simp)
      · intro p hp
        obtain ⟨q, hq, rfl⟩ := List.mem_map.mp hp
        rw [cross_negPt]
        have hb := habove2 q hq
        rw [hr2, het2] at hb
        exact hb.1
      · intro p hp
        obtain ⟨q, hq, rfl⟩ := List.mem_map.mp hp
        rw [cross_negPt]
        have ha := habove1 q hq
        rw [hdec1] at ha
        exact revAbove_last_edge l1 y1 c2 ha
      · exact List.mem_map.mpr ⟨y1, hy1mem, rfl⟩
    rw [cross_negPt] at key
    exact key
  have hTL : TriplesOK (t1'.reverse ++ [e, c1]) := by
    have h := revLeft_to_triples _ hleft1
    rw [hrev1c] at h
    exact h
  have hTU : TriplesOK (c1 :: y2 :: l2.reverse) := by
    have h := revLeft_to_triples _ hleft2
    rw [hrev2b] at h
    exact h
  have h2' : TriplesOK (e :: c1 :: y2 :: l2.reverse) := ⟨hJ1, hTU⟩
  have hglue := triplesOK_glue e c1 (y2 :: l2.reverse) h2' t1'.reverse hTL
  have heqA : t1'.reverse ++ e :: c1 :: y2 :: l2.reverse
      = (t1.reverse ++ t2'.reverse) ++ [g, c2] := by
    have h2 : (c1 :: y2 :: l2.reverse : List Pt) = t2'.reverse ++ [g, c2] :=
      hrev2b.symm.trans hrev2c
    rw [het1, h2]
    simp
  have hstepB : TriplesOK ((t1.reverse ++ t2'.reverse) ++ [g, c2, y1]) := by
    refine triplesOK_append_last hJ2 _ ?_
    rw [← heqA]
    exact hglue
  have hndeg : ¬ (t1' = [] ∧ t2' = []) := by
    rintro ⟨hd1, hd2⟩
    have he : e = c2 := by
      have hg1 : (chainFold (sortedDedup points)).getLast? = some e := by
        rw [hr1, het1, hd1]
        simp
      rw [hlast1, hm] at hg1
      exact (Option.some.inj hg1).symm
    have hgc : g = c1 := by
      have hg2 : (chainFold (sortedDedup points).reverse).getLast?
          = some g := by
        rw [hr2, het2, hd2]
        simp
      rw [hlast2, hM] at hg2
      exact (Option.some.inj hg2).symm
    have hline : ∀ p ∈ sortedDedup points, cross c2 c1 p = 0 := by
      intro p hp
      have ha := habove1 p hp
      rw [hr1, het1, hd1] at ha
      have hb := habove2 p hp
      rw [hr2, het2, hd2] at hb
      have h1' : 0 ≤ cross c2 c1 p := by
        rw [← he]
        exact ha.1
      have h2'' : 0 ≤ cross c1 c2 p := by
        rw [← hgc]
        exact hb.1
      have hs := cross_swap12 c1 c2 p
      omega
    have hMc : ¬ (c1.1 - c2.1 = 0 ∧ c1.2 - c2.2 = 0) := by
      rintro ⟨ha, hb⟩
      apply hmM
      exact Prod.ext_iff.mpr ⟨by omega, by omega⟩
    apply hnc'
    intro a ha b hb c hc
    exact collinear_of_line hMc (hline a ha) (hline b hb) (hline c hc)
  obtain ⟨u', ht2eq⟩ : ∃ u', t2.reverse = c1 :: u' := by
    rcases h : t2.reverse with _ | ⟨x, u'⟩
    · exact absurd h ht2ne
    · rw [hU, List.head?_append_of_ne_nil _ ht2ne, h] at hUhead
      have : x = c1 := by simpa using hUhead
      subst this
      exact ⟨u', rfl⟩
  have htake2 : ((t1.reverse ++ t2.reverse).take 2 : List Pt) = [c2, y1] := by
    rw [ht1eq, ht2eq]
    cases l' with
    | nil =>
        simp only [List.nil_append, List.cons.injEq] at hlink
        rw [hlink.1]
        simp
    | cons d l'' =>
        simp only [List.cons_append, List.cons.injEq] at hlink
        rw [hlink.1]
        simp
  have heqB : (t1.reverse ++ t2.reverse) ++ [c2, y1]
      = (t1.reverse ++ t2'.reverse) ++ [g, c2, y1] := by
    rw [het2]
    simp
  constructor
  · rw [hdrop1, hdrop2, htake2, heqB]
    exact hstepB
  · rw [hdrop1, hdrop2, List.length_append, List.length_reverse,
      List.length_reverse, het1, het2]
    simp only [List.length_cons]
    rcases not_and_or.mp hndeg with h | h
    · have hpos := List.length_pos.mpr h
      omega
    · have hpos := List.length_pos.mpr h
      omega

/-! ## C5: properties of the convex hull -/

/-- **C5.** For every list of points with at least 3 distinct elements,
`convex_hull` returns a sequence whose elements are all members of the input,
every input point lies on or left of every edge of the closed hull ring, and
the result is unchanged under permutation of the input and under adding a
duplicate point. -/
theorem c5_convex_hull_props (points : List Pt)
    (h3 : 3 ≤ points.dedup.length) :
    (∀ x ∈ convex_hull points, x ∈ points)
    ∧ (∀ q ∈ points,
        AboveF q (convex_hull points ++ (convex_hull points).take 1))
    ∧ (∀ points' : List Pt, points.Perm points' →
        convex_hull points = convex_hull points')
    ∧ (∀ x ∈ points, convex_hull (x :: points) = convex_hull points) := by
  refine ⟨fun x hx => convex_hull_subset hx,
    fun q hq => hull_ring_above hq, ?_, ?_⟩
  · intro points' hperm
    exact convex_hull_congr
      (sortedDedup_eq_of_mem_iff (fun x => hperm.mem_iff))
  · intro x hx
    refine convex_hull_congr (sortedDedup_eq_of_mem_iff (fun y => ?_))
    constructor
    · intro hy
      rcases List.mem_cons.mp hy with h | h
      · rw [h]
        exact hx
      · exact h
    · intro hy
      exact List.mem_cons_of_mem x hy

theorem c5_convex_hull_props_witness :
    AboveF ((1 : Int), (1 : Int))
      (convex_hull [((0 : Int), (0 : Int)), (4, 0), (0, 4), (1, 1)]
        ++ (convex_hull [((0 : Int), (0 : Int)), (4, 0), (0, 4), (1, 1)]).take 1) :=
  (c5_convex_hull_props [((0 : Int), (0 : Int)), (4, 0), (0, 4), (1, 1)]
      (by decide)).2.1 ((1 : Int), (1 : Int)) (by decide)

/-! ## C2: the job hull aggregator -/

/-- The coordinate list of the `job_name = j` group (lines 178-179). -/
def jobPts (rows : List Row) (j : Str) : List Pt :=
  (rows.filter (fun r => decide (r.job_name = j))).map rowPt

theorem convex_hull_ne_nil {points : List Pt} (hne : points ≠ []) :
    convex_hull points ≠ [] := by
  have hsdne : sortedDedup points ≠ [] := by
    rcases hp : points with _ | ⟨p, ps⟩
    · exact absurd hp hne
    · intro h
      have hmem : p ∈ sortedDedup (p :: ps) := mem_sortedDedup.mpr (by simp)
      rw [h] at hmem
      simp at hmem
  by_cases hlen : (sortedDedup points).length < 3
  · rw [convex_hull_eq_of_lt3 hlen]
    exact hsdne
  · rw [convex_hull_eq_of_ge3 hlen]
    have hsorted : (sortedDedup points).Pairwise ptLT :=
      sortedDedup_pairwise_lt points
    have hlen2 : 2 ≤ (sortedDedup points).length := by omega
    obtain ⟨hne1, hhead1, hlast1, hmem1, hpair1, hleft1, habove1⟩ :=
      lower_chain_facts hsdne hsorted
    obtain ⟨hne2, hhead2, hlast2, hmem2, hpair2, hleft2, habove2⟩ :=
      upper_chain_facts hsdne hsorted
    obtain ⟨c1, t1, hr1⟩ : ∃ c t, chainFold (sortedDedup points) = c :: t := by
      rcases h : chainFold (sortedDedup points) with _ | ⟨c, t⟩
      · exact absurd h hne1
      · exact ⟨c, t, rfl⟩
    obtain ⟨c2, t2, hr2⟩ :
        ∃ c t, chainFold (sortedDedup points).reverse = c :: t := by
      rcases h : chainFold (sortedDedup points).reverse with _ | ⟨c, t⟩
      · exact absurd h hne2
      · exact ⟨c, t, rfl⟩
    have hM : (sortedDedup points).getLast? = some c1 := by
      rw [← hhead1, hr1]
      rfl
    have hm : (sortedDedup points).head? = some c2 := by
      rw [← hhead2, hr2]
      rfl
    have hmM : c2 ≠ c1 := head_ne_getLast hsorted hlen2 hm hM
    have hL : (chainFold (sortedDedup points)).reverse
        = t1.reverse ++ [c1] := by
      rw [hr1]
      simp
    have hLhead : (chainFold (sortedDedup points)).reverse.head?
        = some c2 := by
      rw [List.head?_reverse, hlast1, hm]
    have ht1ne : t1.reverse ≠ [] := by
      intro h
      rw [hL, h, List.nil_append] at hLhead
      have : c1 = c2 := by simpa using hLhead
      exact hmM this.symm
    intro hcontra
    rcases List.append_eq_nil.mp hcontra with ⟨h1, h2⟩
    rw [hL, List.dropLast_concat] at h1
    exact ht1ne h1

theorem sortedDedup_three_of_noncollinear {l : List Pt}
    (hnc : ¬ ∀ a ∈ l, ∀ b ∈ l, ∀ c ∈ l, cross a b c = 0) :
    ¬ (sortedDedup l).length < 3 := by
  push_neg at hnc
  obtain ⟨a, ha, b, hb, c, hc, habc⟩ := hnc
  have hab : a ≠ b := by
    intro h
    rw [← h] at habc
    exact habc (cross_first_two a c)
  have hac : a ≠ c := by
    intro h
    rw [← h] at habc
    exact habc (cross_back_to_base a b)
  have hbc : b ≠ c := by
    intro h
    rw [← h] at habc
    exact habc (cross_same_last a b)
  have hnd := sortedDedup_nodup l
  have hsub : ({a, b, c} : Finset Pt) ⊆ (sortedDedup l).toFinset := by
    intro x hx
    simp only [Finset.mem_insert, Finset.mem_singleton] at hx
    rw [List.mem_toFinset, mem_sortedDedup]
    rcases hx with h | h | h
    · rw [h]
      exact ha
    · rw [h]
      exact hb
    · rw [h]
      exact hc
  have hcard : ({a, b, c} : Finset Pt).card = 3 := by
    rw [Finset.card_insert_of_not_mem (by simp [hab, hac]),
      Finset.card_insert_of_not_mem (by simp [hbc]), Finset.card_singleton]
  have hle := Finset.card_le_card hsub
  rw [hcard, List.toFinset_card_of_nodup hnd] at hle
  omega

theorem ring_closed {l : List Pt} (hne : l ≠ []) :
    (l ++ l.take 1).head? = (l ++ l.take 1).getLast? := by
  rcases l with _ | ⟨h, t⟩
  · exact absurd rfl hne
  · show ((h :: t) ++ [h]).head? = ((h :: t) ++ [h]).getLast?
    rw [List.getLast?_append_of_ne_nil _ (by simp)]
    rfl

theorem mem_hullFeatures {rows : List Row} {f : JobHullFeature} :
    f ∈ hullFeatures rows
      ↔ ∃ j ∈ jobNamesSorted rows, 3 ≤ (jobPts rows j).length
          ∧ f = { jobName := j,
                  ring := convex_hull (jobPts rows j)
                    ++ (convex_hull (jobPts rows j)).take 1 } := by
  unfold hullFeatures
  rw [List.mem_filterMap]
  constructor
  · rintro ⟨j, hj, hgj⟩
    refine ⟨j, hj, ?_⟩
    have hgj' : (if (jobPts rows j).length < 3 then none
        else some ({ jobName := j,
                     ring := convex_hull (jobPts rows j)
                       ++ (convex_hull (jobPts rows j)).take 1 }
          : JobHullFeature)) = some f := hgj
    by_cases hguard : (jobPts rows j).length < 3
    · rw [if_pos hguard] at hgj'
      cases hgj'
    · rw [if_neg hguard] at hgj'
      exact ⟨by omega, (Option.some.inj hgj').symm⟩
  · rintro ⟨j, hj, h3, hf⟩
    refine ⟨j, hj, ?_⟩
    show (if (jobPts rows j).length < 3 then none
        else some ({ jobName := j,
                     ring := convex_hull (jobPts rows j)
                       ++ (convex_hull (jobPts rows j)).take 1 }
          : JobHullFeature)) = some f
    rw [if_neg (by omega), hf]

/-- **C2.** The job aggregator emits a hull feature for a group exactly when
the group has at least three ROWS (coordinates counted with multiplicity);
every emitted feature's ring is the hull closed with its first point, its
first and last points coincide, and every point of the group lies on or left
of every ring edge; when the group's coordinates are not all collinear the
hull is a strictly convex polygon with at least three vertices. -/
theorem c2_hull_features (rows : List Row) :
    (∀ j ∈ jobNamesSorted rows, 3 ≤ (jobPts rows j).length →
      ({ jobName := j,
         ring := convex_hull (jobPts rows j)
           ++ (convex_hull (jobPts rows j)).take 1 } : JobHullFeature)
        ∈ hullFeatures rows)
    ∧ (∀ f ∈ hullFeatures rows,
        3 ≤ (jobPts rows f.jobName).length
        ∧ f.ring = convex_hull (jobPts rows f.jobName)
            ++ (convex_hull (jobPts rows f.jobName)).take 1
        ∧ f.ring.head? = f.ring.getLast?
        ∧ (∀ q ∈ jobPts rows f.jobName, AboveF q f.ring)
        ∧ ((¬ ∀ a ∈ jobPts rows f.jobName, ∀ b ∈ jobPts rows f.jobName,
              ∀ c ∈ jobPts rows f.jobName, cross a b c = 0) →
            TriplesOK (convex_hull (jobPts rows f.jobName)
                ++ (convex_hull (jobPts rows f.jobName)).take 2)
              ∧ 3 ≤ (convex_hull (jobPts rows f.jobName)).length)) := by
  constructor
  · intro j hj h3
    exact mem_hullFeatures.mpr ⟨j, hj, h3, rfl⟩
  · intro f hf
    obtain ⟨j, hj, h3, hfeq⟩ := mem_hullFeatures.mp hf
    subst hfeq
    have hpts : jobPts rows j ≠ [] := by
      intro h
      rw [h] at h3
      simp at h3
    refine ⟨h3, rfl, ?_, ?_, ?_⟩
    · exact ring_closed (convex_hull_ne_nil hpts)
    · intro q hq
      exact hull_ring_above hq
    · intro hnc
      exact hull_convex (sortedDedup_three_of_noncollinear hnc) hnc

def rowDupA : Row :=
  { job_name := "J".toList, node_type := "pole".toList, scid := "1".toList,
    latitude := some 0, longitude := some 0,
    mrLevels := [], mrCosts := [], warnings := [], companies := [] }

def rowDupB : Row :=
  { job_name := "J".toList, node_type := "pole".toList, scid := "2".toList,
    latitude := some 0, longitude := some 0,
    mrLevels := [], mrCosts := [], warnings := [], companies := [] }

def rowDupC : Row :=
  { job_name := "J".toList, node_type := "pole".toList, scid := "3".toList,
    latitude := some 1, longitude := some 1,
    mrLevels := [], mrCosts := [], warnings := [], companies := [] }

/-- C2 (counterexample): a job with three rows but only two distinct
coordinates still emits a feature — emission is keyed to the row count of
the group, not to its number of distinct coordinates — and its ring is the
degenerate two-point ring. -/
theorem c2_row_count_counterexample :
    (jobPts [rowDupA, rowDupB, rowDupC] "J".toList).dedup.length = 2
    ∧ (hullFeatures [rowDupA, rowDupB, rowDupC]).map
        (fun f => (f.jobName, f.ring))
        = [("J".toList, [((0 : Int), (0 : Int)), (1, 1), (0, 0)])] := by
  decide

def rowTriA : Row :=
  { job_name := "T".toList, node_type := "pole".toList, scid := "1".toList,
    latitude := some 0, longitude := some 0,
    mrLevels := [], mrCosts := [], warnings := [], companies := [] }

def rowTriB : Row :=
  { job_name := "T".toList, node_type := "pole".toList, scid := "2".toList,
    latitude := some 0, longitude := some 2,
    mrLevels := [], mrCosts := [], warnings := [], companies := [] }

def rowTriC : Row :=
  { job_name := "T".toList, node_type := "pole".toList, scid := "3".toList,
    latitude := some 2, longitude := some 0,
    mrLevels := [], mrCosts := [], warnings := [], companies := [] }

theorem c2_hull_features_witness :
    ({ jobName := "T".toList,
       ring := convex_hull (jobPts [rowTriA, rowTriB, rowTriC] "T".toList)
         ++ (convex_hull (jobPts [rowTriA, rowTriB, rowTriC] "T".toList)).take 1 }
      : JobHullFeature) ∈ hullFeatures [rowTriA, rowTriB, rowTriC] :=
  (c2_hull_features [rowTriA, rowTriB, rowTriC]).1 "T".toList
    (by decide) (by decide)
